import Mathlib

/-!
Shallow embedding of the SPIMI indexer of this repository (src/indexer.py),
together with proofs checking the specification's claims about it.

Modelling conventions:
* Terms are Lean `String`s ordered by `LinearOrder String` (codepoint
  lexicographic order, matching Python string comparison on the ASCII terms
  used here).
* Document ids are `Nat` (Python ints; the positional file format's string
  doc keys never collide with anything, so the int model is behaviour
  preserving).
* A postings chunk is a list of `(docId, positions)` pairs.  Non-positional
  mode stores `(docId, [])` for an appended doc id; positional mode uses the
  pair as a dict entry keyed by the doc id.  Chunk length is the Python
  `len(value)` in both modes.
* Python dicts are insertion-ordered association lists; `assocSet` replaces
  in place or appends, exactly like a dict assignment.
* `int((max_postings_per_temp_block / N) * 0.7)` is modelled as the rational
  `Int.div (7 * maxPost) (10 * N)` truncated toward zero; on every
  configuration appearing in a theorem below the float and rational values
  coincide.  Division by zero (N = 0) raises, as in Python.
* The local Python variable `term` of `merge_index_blocks` is `termVar :
  Option String`; using it while unbound raises `UnboundLocalError`.  The
  variable is assigned in two places: by each row read in the read phase,
  and by the merge phase's `for term in block_terms:` loop, whose loop
  variable leaks — after the merge phase `term` is the last snapshotted
  staging key of the last block whose staging was non-empty
  (`mergeLeak` below).
* The `while` merge loop runs on explicit fuel; `outOfFuel` marks a run that
  did not finish within the given fuel.
-/

/-! ### A computable string order

Python compares strings lexicographically by code point.  Lean's `String`
order means the same thing, but its stock `Decidable` instances go through
`String.ltb`, whose recursion the kernel cannot evaluate, so `decide` would
get stuck on every string comparison.  These high-priority instances route
the decision through the character lists instead, where comparison is
structurally recursive; all definitions below pick them up. -/

instance (priority := 2000) strDecLT : ∀ a b : String, Decidable (a < b) :=
  fun a b => decidable_of_iff (a.data < b.data) String.lt_iff_toList_lt.symm

instance (priority := 2000) strDecLE : ∀ a b : String, Decidable (a ≤ b) :=
  fun a b => decidable_of_iff (¬ b < a) not_lt

inductive Mode where
  | nonPositional
  | positional
deriving DecidableEq

/-- A postings chunk: one `(doc id, positions)` entry per posting.  This is
the Python `value` of one index row (a list of doc ids in non-positional
mode, a dict doc id → positions in positional mode). -/
abbrev Chunk := List (Nat × List Nat)

/-- One row of a temp or final block file: a term followed by its postings. -/
structure Row where
  term : String
  chunk : Chunk
deriving DecidableEq

/-- The in-memory inverted index: insertion-ordered dict term → chunk. -/
abbrev InvIndex := List (String × Chunk)

/-- Tokenizer output for one document: term → positions.  Non-positional mode
uses `[]` positions (`tokenize` returns a set of terms there).  The tokenizer
returns a set / dict, so the terms of one document are distinct. -/
abbrev Doc := List (String × List Nat)

instance : DecidableEq Chunk := inferInstance

instance : DecidableEq InvIndex := inferInstance

instance : DecidableEq (List Row × InvIndex) := inferInstance

/-- Dict lookup (Python `m[k]` on an existing key / `k in m`). -/
def assocGet {κ α : Type} [DecidableEq κ] : List (κ × α) → κ → Option α
  | [], _ => none
  | (k, v) :: rest, key => if k = key then some v else assocGet rest key

/-- Dict assignment `m[k] = v`: replace in place if present, else append,
preserving insertion order. -/
def assocSet {κ α : Type} [DecidableEq κ] : List (κ × α) → κ → α → List (κ × α)
  | [], key, v => [(key, v)]
  | (k, w) :: rest, key, v =>
    if k = key then (k, v) :: rest else (k, w) :: assocSet rest key v

/-- The updated postings chunk for one token of one document: non-positional
mode appends the doc id (`inverted_index[token].append(doc_id)`); positional
mode assigns into the per-term dict
(`inverted_index_positional[token][doc_id] = positions`). -/
def newChunk (mode : Mode) (old : Chunk) (docId : Nat) (ps : List Nat) :
    Chunk :=
  match mode with
  | .nonPositional => old ++ [(docId, [])]
  | .positional => assocSet old docId ps

/-- `index_doc` body for one token, going through the defaultdict's
get-or-default. -/
def indexInsert (mode : Mode) (inv : InvIndex) (tok : String) (docId : Nat)
    (ps : List Nat) : InvIndex :=
  assocSet inv tok (newChunk mode ((assocGet inv tok).getD []) docId ps)

/-- `index_doc`: tokenize (the `Doc` is already the tokenizer output) and
insert every token of the document. -/
def indexDoc (mode : Mode) (inv : InvIndex) (docId : Nat) (doc : Doc) :
    InvIndex :=
  doc.foldl (fun acc p => indexInsert mode acc p.1 docId p.2) inv

/-- `dump_index_to_disk`: write one row per term, terms sorted ascending
(`ordered_terms = list(keys); list.sort(ordered_terms)`). -/
def dumpIndex (inv : InvIndex) : List Row :=
  (List.insertionSort (· ≤ ·) (inv.map Prod.fst)).map
    (fun t => ⟨t, (assocGet inv t).getD []⟩)

/-- The Block Builder part of the `Indexer` state during
`index_data_source`. -/
structure BuildState where
  inv : InvIndex
  count : Nat
  blocks : List (List Row)
  nrPostings : Nat
  docId : Nat
deriving DecidableEq

/-- A temp-block flush: dump the structure (sorted), reset
`block_posting_count`, clear the structure, count one more temp segment. -/
def buildFlush (st : BuildState) : BuildState :=
  { st with blocks := st.blocks ++ [dumpIndex st.inv], inv := [], count := 0 }

/-- One iteration of the `for doc in data_reader` loop of
`index_data_source`: flush first if `block_posting_count >
max_postings_per_temp_block`, then parse the doc (assigning the next
surrogate id) and index it; `nr_postings` and `block_posting_count` grow by
`len(tokens)`. -/
def buildStep (mode : Mode) (maxPost : Int) (st : BuildState) (doc : Doc) :
    BuildState :=
  let st := if (st.count : Int) > maxPost then buildFlush st else st
  let docId := st.docId + 1
  { st with
    inv := indexDoc mode st.inv docId doc
    count := st.count + doc.length
    nrPostings := st.nrPostings + doc.length
    docId := docId }

/-- The whole accumulation pass of `index_data_source`: fold over the corpus,
then a final flush if the in-memory index is non-empty. -/
def buildRun (mode : Mode) (maxPost : Int) (corpus : List Doc) : BuildState :=
  let st := corpus.foldl (buildStep mode maxPost) ⟨[], 0, [], 0, 0⟩
  if st.inv = [] then st else buildFlush st

inductive RunError where
  /-- The spec's error kind for an invalid threshold.  No statement of the
  code ever raises it. -/
  | configurationError
  /-- Python `ZeroDivisionError` (read-budget computation with zero temp
  segments). -/
  | zeroDivision
  /-- Python `UnboundLocalError` (`last_term_list.append(term)` with `term`
  never assigned). -/
  | unboundLocal
  /-- Python `IndexError` (`last_term_list[0]` on an empty list). -/
  | emptyList
  /-- The fuelled model ran out of fuel before the merge loop exited. -/
  | outOfFuel
deriving DecidableEq

/-- State of `merge_index_blocks`: per temp block its unread rows and its
staging dict `temp_merge_dict[blockNr]`, plus the accumulator, the master
index, the local `term` variable, and the counters. -/
structure MergeState where
  cursors : List (List Row × InvIndex)
  inv : InvIndex
  master : List (String × Nat × Nat)
  termVar : Option String
  nrMerged : Nat
  bpc : Nat
  nrFinal : Nat
  finals : List (List Row)
deriving DecidableEq

/-- The inner `while nr_postings_read < max_postings_read_per_block` loop for
one block: read rows, stage them, track the last read term in the shared
`term` variable. -/
def readBlock (budget : Int) (reader : List Row) (stg : InvIndex)
    (tv : Option String) (nrRead : Nat) : List Row × InvIndex × Option String :=
  if (nrRead : Int) < budget then
    match reader with
    | [] => (reader, stg, tv)
    | row :: rest =>
      readBlock budget rest (assocSet stg row.term row.chunk) (some row.term)
        (nrRead + row.chunk.length)
  else (reader, stg, tv)

/-- The `for block_nr in range(0, ...)` reading loop of one merge round:
read each block, then `last_term_list.append(term)` — appending the current
value of the shared local `term`, whatever block last set it; if `term` was
never assigned this raises `UnboundLocalError`. -/
def readPhase (budget : Int) :
    List (List Row × InvIndex) → Option String →
    Except RunError (List (List Row × InvIndex) × List String × Option String)
  | [], tv => .ok ([], [], tv)
  | (r, g) :: rest, tv =>
    let x := readBlock budget r g tv 0
    match x.2.2 with
    | none => .error .unboundLocal
    | some t =>
      Except.bind (readPhase budget rest x.2.2)
        (fun y => .ok ((x.1, x.2.1) :: y.1, t :: y.2.1, y.2.2))

/-- Merge the accumulator with one staged chunk: non-positional
`inverted_index[term] += value`; positional
`inverted_index[term][posting] = posting_dict[posting]` for each key. -/
def invMerge (mode : Mode) (inv : InvIndex) (t : String) (c : Chunk) :
    InvIndex :=
  let old := (assocGet inv t).getD []
  let merged :=
    match mode with
    | .nonPositional => old ++ c
    | .positional => c.foldl (fun acc p => assocSet acc p.1 p.2) old
  assocSet inv t merged

/-- `master_index[term][0] += n; master_index[term][1] = blk` on the
defaultdict with default `[0, 0]`. -/
def masterUpd (m : List (String × Nat × Nat)) (t : String) (n blk : Nat) :
    List (String × Nat × Nat) :=
  let old := ((assocGet m t).getD (0, 0)).1
  assocSet m t (old + n, blk)

/-- The merge step over one block's staging dict: every staged term `≤
last_term_to_merge` is popped and merged into the accumulator, the counters
and the master index; later terms stay staged. -/
def mergeStage (mode : Mode) (boundary : String) (nrFinal : Nat) :
    InvIndex → InvIndex → List (String × Nat × Nat) → Nat → Nat →
    InvIndex × InvIndex × List (String × Nat × Nat) × Nat × Nat
  | [], inv, master, merged, bpc => ([], inv, master, merged, bpc)
  | (t, c) :: rest, inv, master, merged, bpc =>
    if t ≤ boundary then
      mergeStage mode boundary nrFinal rest (invMerge mode inv t c)
        (masterUpd master t c.length nrFinal) (merged + c.length)
        (bpc + c.length)
    else
      let y := mergeStage mode boundary nrFinal rest inv master merged bpc
      ((t, c) :: y.1, y.2)

/-- The final value of the Python local `term` after the merge phase.  Each
block's merge loop is `for term in block_terms:` over the snapshot
`block_terms = list(temp_merge_dict[block_nr].keys())` taken before any of
that block's terms are popped, and a Python for-loop leaks its variable: so
after the whole phase `term` is the last staged key of the last block whose
staging (at the start of the phase) was non-empty, and keeps its read-phase
value if every staging was empty. -/
def mergeLeak : List (List Row × InvIndex) → Option String → Option String
  | [], tv => tv
  | c :: rest, tv =>
    mergeLeak rest
      (match (c.2.map Prod.fst).getLast? with
        | some t => some t
        | none => tv)

/-- The `for block_nr in range(1, ...)` merging loop over all blocks. -/
def mergeAll (mode : Mode) (boundary : String) (nrFinal : Nat) :
    List (List Row × InvIndex) → InvIndex → List (String × Nat × Nat) →
    Nat → Nat →
    List (List Row × InvIndex) × InvIndex × List (String × Nat × Nat) ×
      Nat × Nat
  | [], inv, master, merged, bpc => ([], inv, master, merged, bpc)
  | (r, g) :: rest, inv, master, merged, bpc =>
    let x := mergeStage mode boundary nrFinal g inv master merged bpc
    let y := mergeAll mode boundary nrFinal rest x.2.1 x.2.2.1 x.2.2.2.1
      x.2.2.2.2
    ((r, x.1) :: y.1, y.2)

/-- The part of one merge round after the read phase: boundary computation
(`last_term_list.sort(); last_term_list[0]`), merge phase (which also
reassigns the leaked local `term`, per `mergeLeak`), and the
threshold-triggered flush of a final block. -/
def roundTail (mode : Mode) (maxPost : Int) (st : MergeState)
    (rp : List (List Row × InvIndex) × List String × Option String) :
    Except RunError MergeState :=
  match List.insertionSort (· ≤ ·) rp.2.1 with
  | [] => .error .emptyList
  | boundary :: _ =>
    let x := mergeAll mode boundary st.nrFinal rp.1 st.inv st.master
      st.nrMerged st.bpc
    let st := { st with
      cursors := x.1
      inv := x.2.1
      master := x.2.2.1
      nrMerged := x.2.2.2.1
      bpc := x.2.2.2.2
      termVar := mergeLeak rp.1 rp.2.2 }
    if (st.bpc : Int) ≥ maxPost then
      .ok { st with
        finals := st.finals ++ [dumpIndex st.inv]
        inv := []
        bpc := 0
        nrFinal := st.nrFinal + 1 }
    else .ok st

/-- One iteration of the merge `while` loop: read phase, then the merge and
flush of `roundTail`. -/
def roundStep (mode : Mode) (maxPost budget : Int) (st : MergeState) :
    Except RunError MergeState :=
  Except.bind (readPhase budget st.cursors st.termVar)
    (roundTail mode maxPost st)

/-- The fuelled `while nr_merged_postings < self.nr_postings` loop. -/
def mergeLoop (mode : Mode) (maxPost budget : Int) (nrPostings : Nat) :
    Nat → MergeState → Except RunError MergeState
  | 0, st => if st.nrMerged < nrPostings then .error .outOfFuel else .ok st
  | fuel + 1, st =>
    if st.nrMerged < nrPostings then
      Except.bind (roundStep mode maxPost budget st)
        (mergeLoop mode maxPost budget nrPostings fuel)
    else .ok st

/-- Initial merge state: one open cursor with empty staging per temp block,
empty accumulator, `block_posting_count = 0`, `nr_final_index_blocks = 1`,
`nr_merged_postings = 0`, `term` unbound. -/
def initMerge (blocks : List (List Row)) : MergeState :=
  { cursors := blocks.map (fun b => (b, []))
    inv := []
    master := []
    termVar := none
    nrMerged := 0
    bpc := 0
    nrFinal := 1
    finals := [] }

/-- `merge_index_blocks`: computing the per-round read budget
`int((max_postings_per_temp_block / nr_temp_index_segments) * 0.7)` raises
`ZeroDivisionError` when there are no temp segments; otherwise run the merge
loop and make a final dump if the accumulator is non-empty. -/
def mergeIndexBlocks (mode : Mode) (maxPost : Int) (nrPostings : Nat)
    (blocks : List (List Row)) (fuel : Nat) : Except RunError MergeState :=
  if blocks.length = 0 then .error .zeroDivision
  else
    Except.bind
      (mergeLoop mode maxPost
        (Int.tdiv (7 * maxPost) (10 * (blocks.length : Int))) nrPostings fuel
        (initMerge blocks))
      (fun st =>
        if st.inv = [] then .ok st
        else .ok { st with
          finals := st.finals ++ [dumpIndex st.inv]
          inv := []
          bpc := 0 })

/-- `dump_master_index`: rows `(term, document frequency, block number)`
sorted ascending by term. -/
def sortMaster (m : List (String × Nat × Nat)) : List (String × Nat × Nat) :=
  (List.insertionSort (· ≤ ·) (m.map Prod.fst)).map
    (fun t => (t, (assocGet m t).getD (0, 0)))

/-- The observable outcome of one `index_data_source` run. -/
structure RunResult where
  finals : List (List Row)
  masterFile : List (String × Nat × Nat)
  nrIndexedDocs : Nat
  nrPostingsStat : Nat
  vocabularySize : Nat
  nrTempSegments : Nat
deriving DecidableEq

/-- `index_data_source`: accumulation pass, merge, master-index dump and the
statistics.  The vocabulary-size statistic is the code's
`self.vocabulary_size = len(self.doc_keys)`, and `doc_keys` holds exactly one
entry per parsed document. -/
def indexDataSource (mode : Mode) (maxPost : Int) (corpus : List Doc)
    (fuel : Nat) : Except RunError RunResult :=
  let b := buildRun mode maxPost corpus
  Except.bind (mergeIndexBlocks mode maxPost b.nrPostings b.blocks fuel)
    (fun m =>
      .ok { finals := m.finals
            masterFile := sortMaster m.master
            nrIndexedDocs := b.docId
            nrPostingsStat := b.nrPostings
            vocabularySize := b.docId
            nrTempSegments := b.blocks.length })

/-! ### Counting helpers -/

/-- Total number of postings in a list of rows. -/
def rowsTotal (rows : List Row) : Nat := (rows.map (fun r => r.chunk.length)).sum

/-- Total number of postings in an in-memory index. -/
def invTotal (inv : InvIndex) : Nat := (inv.map (fun e => e.2.length)).sum

/-- Number of postings rows with term `t` hold. -/
def rowsCount (rows : List Row) (t : String) : Nat :=
  (rows.map (fun r => if r.term = t then r.chunk.length else 0)).sum

/-- Number of postings an in-memory index holds for term `t`. -/
def invCount (inv : InvIndex) (t : String) : Nat :=
  (inv.map (fun e => if e.1 = t then e.2.length else 0)).sum

/-- Number of postings for term `t` across a list of blocks. -/
def blocksCount (blocks : List (List Row)) (t : String) : Nat :=
  (blocks.map (fun b => rowsCount b t)).sum

/-- Postings still unmerged in the merge cursors (unread rows plus staged
rows). -/
def stagingTotal (cursors : List (List Row × InvIndex)) : Nat :=
  (cursors.map (fun c => rowsTotal c.1 + invTotal c.2)).sum

/-- Unmerged postings for term `t` in the merge cursors. -/
def stagingCount (cursors : List (List Row × InvIndex)) (t : String) : Nat :=
  (cursors.map (fun c => rowsCount c.1 t + invCount c.2 t)).sum

/-- All doc ids in an in-memory index are at most `n` (they were assigned to
already-read documents). -/
def docsLe (inv : InvIndex) (n : Nat) : Prop :=
  ∀ e ∈ inv, ∀ p ∈ e.2, p.1 ≤ n

/-- Document frequency a master index records for a term (0 if absent). -/
def masterDf (m : List (String × Nat × Nat)) (t : String) : Nat :=
  ((assocGet m t).getD (0, 0)).1

/-- Structural health of one merge cursor: the unread rows carry distinct
terms, the staged terms are distinct, and no staged term is still unread
(each temp file lists a term once, and the cursor only moves forward). -/
def CursorOk (c : List Row × InvIndex) : Prop :=
  (c.1.map Row.term).Nodup ∧ (c.2.map Prod.fst).Nodup ∧
  ∀ t ∈ c.2.map Prod.fst, t ∉ c.1.map Row.term

/-- The merge-loop invariant for document-frequency accounting: every
posting is either already counted in the master index or still pending in
some cursor, globally (`total`, with `nr_merged_postings` tracking the
counted ones) and per term (`perTerm`, against the reference count `C`). -/
structure MergeOk (np : Nat) (C : String → Nat) (st : MergeState) : Prop where
  cursors : ∀ c ∈ st.cursors, CursorOk c
  total : st.nrMerged + stagingTotal st.cursors = np
  perTerm : ∀ t, masterDf st.master t + stagingCount st.cursors t = C t

/-- Final-block number a master index records for a term (0 if absent). -/
def masterBlk (m : List (String × Nat × Nat)) (t : String) : Nat :=
  ((assocGet m t).getD (0, 0)).2

/-- The numbers (starting at `k`) of the final blocks whose rows contain
term `t`; `blocksContaining finals t 1` numbers the blocks 1-based, the way
the `PostingIndexBlock{n}.tsv` files are named. -/
def blocksContaining : List (List Row) → String → Nat → List Nat
  | [], _, _ => []
  | b :: rest, t, k =>
    (if t ∈ b.map Row.term then [k] else []) ++
      blocksContaining rest t (k + 1)

/-- Strong structural health of one merge cursor: the unread rows are
strictly sorted by term, the staged terms are distinct, and every staged
term lies strictly below every unread row (each temp file is strictly
sorted and the cursor only moves forward). -/
def CursorSorted (c : List Row × InvIndex) : Prop :=
  ((c.1.map Row.term).Pairwise (· < ·)) ∧ (c.2.map Prod.fst).Nodup ∧
  ∀ s ∈ c.2.map Prod.fst, ∀ r ∈ c.1, s < r.term

/-- `t` is staged in some block's `temp_merge_dict`. -/
def stagedIn (cs : List (List Row × InvIndex)) (t : String) : Prop :=
  ∃ c ∈ cs, t ∈ c.2.map Prod.fst

/-- `t` still appears in some cursor, staged or unread. -/
def inCursors (cs : List (List Row × InvIndex)) (t : String) : Prop :=
  ∃ c ∈ cs, t ∈ c.2.map Prod.fst ∨ t ∈ c.1.map Row.term

/-- Pairing of the post-read cursors with the `last_term_list` entries of
one read phase: the entry appended for each block bounds that block's
remaining unread rows strictly from below.  (A block that read rows
appended its own frontier; a block that read none has no unread rows left
when the budget is positive.) -/
def ReadFacts : List (List Row × InvIndex) → List String → Prop
  | [], [] => True
  | c :: cs, t :: ts => (∀ r ∈ c.1, t < r.term) ∧ ReadFacts cs ts
  | _, _ => False

/-- The placement invariant of the merge loop (claim C5): final blocks
written so far are numbered `1 .. nrFinal - 1`; every term of the master
index is recorded with the number of the final block holding its postings
row — either a block already written (and then the term is in no other
written block and not in the accumulator), or the upcoming block `nrFinal`,
whose eventual content is the accumulator; merged terms are gone from every
cursor; accumulator terms and written terms all belong to the master
index. -/
structure PlaceOk (st : MergeState) : Prop where
  finLen : st.finals.length + 1 = st.nrFinal
  invNodup : (st.inv.map Prod.fst).Nodup
  cursors : ∀ c ∈ st.cursors, CursorSorted c
  placed : ∀ t ∈ st.master.map Prod.fst,
    (blocksContaining st.finals t 1 = [] ∧ t ∈ st.inv.map Prod.fst ∧
      masterBlk st.master t = st.nrFinal) ∨
    (blocksContaining st.finals t 1 = [masterBlk st.master t] ∧
      t ∉ st.inv.map Prod.fst ∧ masterBlk st.master t < st.nrFinal)
  done : ∀ t ∈ st.master.map Prod.fst, ¬ inCursors st.cursors t
  invSub : ∀ t ∈ st.inv.map Prod.fst, t ∈ st.master.map Prod.fst
  finalsSub : ∀ t, blocksContaining st.finals t 1 ≠ [] →
    t ∈ st.master.map Prod.fst

/-- The Token Source contract: within one document's tokenizer output the
terms are distinct (`tokenize` returns a set of terms or a dict keyed by
term). -/
def TokensOk (corpus : List Doc) : Prop :=
  ∀ d ∈ corpus, (d.map Prod.fst).Nodup

/-- While a document with id `id` is being indexed, only the terms listed in
`sofar` can already hold a posting of this document. -/
def invFresh (inv : InvIndex) (id : Nat) (sofar : List String) : Prop :=
  ∀ e ∈ inv, ∀ p ∈ e.2, p.1 = id → e.1 ∈ sofar

/-! ### Spec-side definitions

These follow the specification's words, for comparison with the code-side
definitions above. -/

/-- The Block Builder loop exactly as claim C6 words it: before each
document, if the running count exceeds the threshold, serialize the entire
structure (rows sorted ascending by term), reset the running count to zero
and clear the structure, then index the document; after the source is
exhausted, a final flush happens if and only if the structure is
non-empty. -/
def builderSpecLoop (mode : Mode) (maxPost : Int) :
    List Doc → InvIndex → Nat → List (List Row) → Nat → Nat → BuildState
  | [], inv, count, blocks, nrPostings, docId =>
    if inv = [] then ⟨inv, count, blocks, nrPostings, docId⟩
    else ⟨[], 0, blocks ++ [dumpIndex inv], nrPostings, docId⟩
  | doc :: rest, inv, count, blocks, nrPostings, docId =>
    if (count : Int) > maxPost then
      builderSpecLoop mode maxPost rest (indexDoc mode [] (docId + 1) doc)
        doc.length (blocks ++ [dumpIndex inv]) (nrPostings + doc.length)
        (docId + 1)
    else
      builderSpecLoop mode maxPost rest (indexDoc mode inv (docId + 1) doc)
        (count + doc.length) blocks (nrPostings + doc.length) (docId + 1)

/-- The spec-side accumulation pass over a whole corpus. -/
def builderSpecRun (mode : Mode) (maxPost : Int) (corpus : List Doc) :
    BuildState :=
  builderSpecLoop mode maxPost corpus [] 0 [] 0 0

/-- Rows read from each block during one read phase, from the cursors before
and after the phase. -/
def rowsReadPerBlock (before after : List (List Row × InvIndex)) : List Nat :=
  List.zipWith (fun b a => b.1.length - a.1.length) before after

/-- Spec notion: the frontier term of a block for a round — the last term
the block read this round, or none when it read no rows. -/
def frontierTerm (before after : List Row) : Option String :=
  ((before.take (before.length - after.length)).map Row.term).getLast?

/-- Spec notion (claim C1): the merge boundary is the lexicographically
smallest frontier term among only those blocks that read at least one row
this round; a block that read nothing contributes nothing. -/
def boundaryPerSpec (before after : List (List Row × InvIndex)) :
    Option String :=
  ((List.zipWith (fun b a => frontierTerm b.1 a.1) before after).filterMap
    id).min?

/-- The boundary the code computes for a round (`last_term_list.sort()`
followed by `last_term_list[0]`), extracted from the read phase. -/
def boundaryPerCode (budget : Int) (st : MergeState) : Option String :=
  match readPhase budget st.cursors st.termVar with
  | .error _ => none
  | .ok rp => (List.insertionSort (· ≤ ·) rp.2.1).head?

/-- Number of distinct surrogate ids whose postings list contains `t`: the
documents (taken in reading order, ids are assigned densely) whose token
output contains the term. -/
def countDocsContaining (corpus : List Doc) (t : String) : Nat :=
  (corpus.filter (fun d => d.any (fun p => p.1 = t))).length

/-- All terms occurring in a list of final blocks, without duplicates. -/
def finalsVocab (finals : List (List Row)) : List String :=
  (finals.foldr (fun b acc => b.map Row.term ++ acc) []).dedup

/-- Total number of postings stored in a list of blocks. -/
def blocksPostings (blocks : List (List Row)) : Nat :=
  (blocks.map rowsTotal).sum

/-! ### Concrete inputs

All corpora are given as tokenizer output (non-positional mode).
`corpusAB` produces one temp block at threshold 100 and is used by several
witnesses.  `corpus1` drives the round-boundary finding of claim C1: at
threshold 3 the accumulation pass flushes `TempBlock1 = [a, b, c, d]`
before document 2 and dumps `TempBlock2 = [g, h, i, j, k, l]` at the end,
so the merge runs over two blocks with per-round read budget
`int((3 / 2) * 0.7) = 1`.  `corpus2`, `corpus3` and `corpus4` are
configurations whose positive threshold still yields a zero read budget
`int((max_postings_per_temp_block / N) * 0.7)`, so the first merge round
reads nothing and the unbound local `term` crashes the merge. -/

def docABCD : Doc := [("a", []), ("b", []), ("c", []), ("d", [])]

def docZ : Doc := [("z", [])]

def corpusAB : List Doc := [docABCD, docZ]

def docGHIJKL : Doc :=
  [("g", []), ("h", []), ("i", []), ("j", []), ("k", []), ("l", [])]

/-- The claim C1 corpus: 4 + 6 postings, temp blocks `[a, b, c, d]` and
`[g, h, i, j, k, l]` at threshold 3. -/
def corpus1 : List Doc := [docABCD, docGHIJKL]

/-- The temp blocks of the `corpus1` run at threshold 3. -/
def tempBlocks1 : List (List Row) :=
  (buildRun .nonPositional 3 corpus1).blocks

/-- One document `{a}`: at threshold 1 the builder writes one temp block of
one posting and the merge budget is `int((1 / 1) * 0.7) = 0`. -/
def corpus2 : List Doc := [[("a", [])]]

/-- Two documents `{a, b, c}` and `{z}`: at threshold 2 the builder writes
two temp blocks and the merge budget is `int((2 / 2) * 0.7) = 0`; at
threshold 100 the run completes with the full index. -/
def corpus3 : List Doc := [[("a", []), ("b", []), ("c", [])], docZ]

/-- One document `{a, b}`: at threshold 1 the builder writes one temp block
of two postings and the merge budget is `int((1 / 1) * 0.7) = 0`. -/
def corpus4 : List Doc := [[("a", []), ("b", [])]]

/-- `corpus1` merge, state after round 1: block 1 read `a`, block 2 read
`g`; boundary `a`; `a` merged; the merge-phase loop leaves `term = "g"`
(last staged key of block 2). -/
def c1Round1 : MergeState :=
  { cursors := [([⟨"b", [(1, [])]⟩, ⟨"c", [(1, [])]⟩, ⟨"d", [(1, [])]⟩], []),
                ([⟨"h", [(2, [])]⟩, ⟨"i", [(2, [])]⟩, ⟨"j", [(2, [])]⟩,
                  ⟨"k", [(2, [])]⟩, ⟨"l", [(2, [])]⟩],
                 [("g", [(2, [])])])]
    inv := [("a", [(1, [])])]
    master := [("a", 1, 1)]
    termVar := some "g"
    nrMerged := 1
    bpc := 1
    nrFinal := 1
    finals := [] }

/-- `corpus1` merge, state after round 2: `b` merged, `g, h` staged,
`term = "h"`. -/
def c1Round2 : MergeState :=
  { cursors := [([⟨"c", [(1, [])]⟩, ⟨"d", [(1, [])]⟩], []),
                ([⟨"i", [(2, [])]⟩, ⟨"j", [(2, [])]⟩, ⟨"k", [(2, [])]⟩,
                  ⟨"l", [(2, [])]⟩],
                 [("g", [(2, [])]), ("h", [(2, [])])])]
    inv := [("a", [(1, [])]), ("b", [(1, [])])]
    master := [("a", 1, 1), ("b", 1, 1)]
    termVar := some "h"
    nrMerged := 2
    bpc := 2
    nrFinal := 1
    finals := [] }

/-- `corpus1` merge, state after round 3: `c` merged, the accumulator hit
the threshold and was flushed as `PostingIndexBlock1 = [a, b, c]`;
`term = "i"`. -/
def c1Round3 : MergeState :=
  { cursors := [([⟨"d", [(1, [])]⟩], []),
                ([⟨"j", [(2, [])]⟩, ⟨"k", [(2, [])]⟩, ⟨"l", [(2, [])]⟩],
                 [("g", [(2, [])]), ("h", [(2, [])]), ("i", [(2, [])])])]
    inv := []
    master := [("a", 1, 1), ("b", 1, 1), ("c", 1, 1)]
    termVar := some "i"
    nrMerged := 3
    bpc := 0
    nrFinal := 2
    finals := [[⟨"a", [(1, [])]⟩, ⟨"b", [(1, [])]⟩, ⟨"c", [(1, [])]⟩]] }

/-- `corpus1` merge, state after round 4: `d` merged, block 1 exhausted,
`g, h, i, j` staged in block 2 with rows `k, l` unread; the merge-phase
loop over block 2's staging snapshot `[g, h, i, j]` leaves `term = "j"`.
In round 5 block 1 reads no rows and appends this leftover `"j"` to
`last_term_list`, while block 2 reads one row with frontier `"k"`. -/
def c1Round4 : MergeState :=
  { cursors := [([], []),
                ([⟨"k", [(2, [])]⟩, ⟨"l", [(2, [])]⟩],
                 [("g", [(2, [])]), ("h", [(2, [])]), ("i", [(2, [])]),
                  ("j", [(2, [])])])]
    inv := [("d", [(1, [])])]
    master := [("a", 1, 1), ("b", 1, 1), ("c", 1, 1), ("d", 1, 2)]
    termVar := some "j"
    nrMerged := 4
    bpc := 1
    nrFinal := 2
    finals := [[⟨"a", [(1, [])]⟩, ⟨"b", [(1, [])]⟩, ⟨"c", [(1, [])]⟩]] }

deriving instance DecidableEq for Except

/-! ### Helper lemmas -/

theorem exceptBind_error {α β : Type} (e : Except RunError α)
    (f : α → Except RunError β) (err : RunError) (h : e = .error err) :
    Except.bind e f = .error err := by
  rw [h]; rfl

theorem exceptBind_ok_inv {α β : Type} (e : Except RunError α)
    (f : α → Except RunError β) (b : β) (h : Except.bind e f = .ok b) :
    ∃ a, e = .ok a ∧ f a = .ok b := by
  cases e with
  | error err => exact absurd h (by simp [Except.bind])
  | ok a => exact ⟨a, rfl, h⟩

theorem mergeLoop_step {mode : Mode} {mp b : Int} {np n : Nat}
    {st st2 : MergeState} (hlt : st.nrMerged < np)
    (hstep : roundStep mode mp b st = .ok st2) :
    mergeLoop mode mp b np (n + 1) st = mergeLoop mode mp b np n st2 := by
  rw [mergeLoop, if_pos hlt, hstep]
  rfl

theorem indexDataSource_error (mode : Mode) (maxPost : Int)
    (corpus : List Doc) (fuel : Nat) (e : RunError)
    (h : mergeIndexBlocks mode maxPost
      (buildRun mode maxPost corpus).nrPostings
      (buildRun mode maxPost corpus).blocks fuel = .error e) :
    indexDataSource mode maxPost corpus fuel = .error e := by
  dsimp only [indexDataSource]
  rw [h]
  rfl

/-! ### Claim theorems (concrete findings) -/

/-- C1: the claim says that in every merge round the boundary is the
lexicographically smallest frontier term among only those blocks that read
at least one row this round, so that a temp block exhausted with no rows
read never constrains the minimum.  The code violates this: on the
`corpus1` merge at threshold 3 (temp blocks `[a, b, c, d]` and
`[g, h, i, j, k, l]`, read budget 1), round 5 starts from `c1Round4` — a
state reached from the initial merge state by four rounds, with block 1
exhausted.  In round 5 block 1 reads zero rows yet appends the leftover
value `"j"` of the shared local `term` (set by round 4's merge-phase loop)
to `last_term_list`, while block 2, the only block that read a row, has
frontier `"k"`.  The boundary per the claim is `"k"`; the code computes
`min("j", "k") = "j"` — the exhausted block lowered the boundary below the
only real frontier. -/
theorem C1_stale_term_constrains_boundary :
    roundStep .nonPositional 3 1 (initMerge tempBlocks1) = .ok c1Round1 ∧
    roundStep .nonPositional 3 1 c1Round1 = .ok c1Round2 ∧
    roundStep .nonPositional 3 1 c1Round2 = .ok c1Round3 ∧
    roundStep .nonPositional 3 1 c1Round3 = .ok c1Round4 ∧
    Int.tdiv (7 * 3) (10 * ((tempBlocks1.length : Int))) = 1 ∧
    (buildRun .nonPositional 3 corpus1).nrPostings = 10 ∧
    c1Round4.nrMerged = 4 ∧
    c1Round4.cursors.map (fun c => c.1.length) = [0, 2] ∧
    (readPhase 1 c1Round4.cursors c1Round4.termVar).map
        (fun rp => rowsReadPerBlock c1Round4.cursors rp.1) = .ok [0, 1] ∧
    (readPhase 1 c1Round4.cursors c1Round4.termVar).map
        (fun rp => rp.2.1) = .ok ["j", "k"] ∧
    (readPhase 1 c1Round4.cursors c1Round4.termVar).map
        (fun rp => boundaryPerSpec c1Round4.cursors rp.1) = .ok (some "k") ∧
    boundaryPerCode 1 c1Round4 = some "j" ∧
    ("j" : String) < "k" := by
  refine ⟨by decide, by decide, by decide, by decide, by decide, by decide,
    by decide, by decide, by decide, by decide, by decide, by decide,
    by decide⟩

/-- C8: the claim says the vocabulary-size statistic equals the number of
distinct terms of the merged vocabulary, not the number of indexed
documents.  The code sets `self.vocabulary_size = len(self.doc_keys)`,
which is the number of indexed documents: on the `corpusAB` run with
threshold 100 the final blocks hold 5 distinct terms but the statistic is
2, the document count. -/
theorem C8_vocabulary_size_is_doc_count :
    (indexDataSource .nonPositional 100 corpusAB 5).map
        RunResult.vocabularySize = .ok 2 ∧
    (indexDataSource .nonPositional 100 corpusAB 5).map
        (fun r => (finalsVocab r.finals).length) = .ok 5 ∧
    (indexDataSource .nonPositional 100 corpusAB 5).map
        RunResult.nrIndexedDocs = .ok 2 := by
  refine ⟨by decide, by decide, by decide⟩

/-- C9 counterexample: the claim says a threshold ≤ 0 produces a
`ConfigurationError` and the indexer aborts before producing any index
output.  Neither happens: no code path constructs a configuration error,
and at threshold 0 on `corpusAB` the build pass happily writes two temp
blocks (index output), after which the merge crashes with an
`UnboundLocalError` — the nonpositive read budget makes every round read
zero rows, so the local `term` is never assigned. -/
theorem C9_no_configuration_error :
    indexDataSource .nonPositional 0 corpusAB 5 = .error .unboundLocal ∧
    (buildRun .nonPositional 0 corpusAB).blocks.length = 2 ∧
    RunError.unboundLocal ≠ RunError.configurationError := by
  refine ⟨by decide, by decide, by decide⟩

/-! ### Dictionary lemmas -/

theorem assocGet_none {κ α : Type} [DecidableEq κ] :
    ∀ (m : List (κ × α)) (k : κ), assocGet m k = none ↔ k ∉ m.map Prod.fst := by
  intro m k
  induction m with
  | nil => simp [assocGet]
  | cons e rest ih =>
    by_cases h : e.1 = k
    · simp [assocGet, h]
    · simp only [List.map_cons, List.mem_cons]
      rw [show assocGet (e :: rest) k = assocGet rest k by
        cases e; simp [assocGet, h]]
      rw [ih]
      constructor
      · intro hh hc
        rcases hc with hc | hc
        · exact h hc.symm
        · exact hh hc
      · intro hh
        exact fun hc => hh (Or.inr hc)

theorem assocGet_cons_eq {κ α : Type} [DecidableEq κ] (k : κ) (v : α)
    (rest : List (κ × α)) : assocGet ((k, v) :: rest) k = some v := by
  simp [assocGet]

theorem assocGet_cons_ne {κ α : Type} [DecidableEq κ] {k k' : κ} (v : α)
    (rest : List (κ × α)) (h : k ≠ k') :
    assocGet ((k, v) :: rest) k' = assocGet rest k' := by
  simp [assocGet, h]

theorem assocSet_fresh {κ α : Type} [DecidableEq κ] :
    ∀ (m : List (κ × α)) (k : κ) (v : α), k ∉ m.map Prod.fst →
      assocSet m k v = m ++ [(k, v)] := by
  intro m k v h
  induction m with
  | nil => rfl
  | cons e rest ih =>
    cases e with
    | mk k0 v0 =>
      simp only [List.map_cons, List.mem_cons, not_or] at h
      show (if k0 = k then (k0, v) :: rest else (k0, v0) :: assocSet rest k v) =
        ((k0, v0) :: rest) ++ [(k, v)]
      rw [if_neg (fun hh => h.1 hh.symm), List.cons_append]
      exact congrArg _ (ih h.2)

theorem assocSet_keys_mem {κ α : Type} [DecidableEq κ] :
    ∀ (m : List (κ × α)) (k : κ) (v : α), k ∈ m.map Prod.fst →
      (assocSet m k v).map Prod.fst = m.map Prod.fst := by
  intro m k v h
  induction m with
  | nil => simp at h
  | cons e rest ih =>
    cases e with
    | mk k0 v0 =>
      by_cases hk : k0 = k
      · simp [assocSet, hk]
      · simp only [List.map_cons, List.mem_cons] at h
        rcases h with h | h
        · exact absurd h.symm hk
        · simp [assocSet, hk, ih h]

/-! ### Counting lemmas for dictionaries -/

theorem keysMapGet_sum {κ α : Type} [DecidableEq κ] (d : α) (h : κ → α → Nat) :
    ∀ m : List (κ × α), (m.map Prod.fst).Nodup →
      (((m.map Prod.fst).map (fun k => h k ((assocGet m k).getD d))).sum =
        (m.map (fun e => h e.1 e.2)).sum) := by
  intro m
  induction m with
  | nil => simp
  | cons e rest ih =>
    intro hnd
    cases e with
    | mk k0 v0 =>
      simp only [List.map_cons, List.nodup_cons] at hnd ⊢
      rw [List.sum_cons, List.sum_cons, assocGet_cons_eq]
      simp only [Option.getD_some]
      have hrest : ((rest.map Prod.fst).map
          (fun k => h k ((assocGet ((k0, v0) :: rest) k).getD d))).sum =
          ((rest.map Prod.fst).map
            (fun k => h k ((assocGet rest k).getD d))).sum := by
        apply congrArg
        apply List.map_congr_left
        intro k hk
        rw [assocGet_cons_ne _ _ (fun hh => hnd.1 (by rw [hh]; exact hk))]
      rw [hrest, ih hnd.2]

theorem assocGet_mem {κ α : Type} [DecidableEq κ] :
    ∀ (m : List (κ × α)) (k : κ) (v : α), assocGet m k = some v → (k, v) ∈ m := by
  intro m k v h
  induction m with
  | nil => simp [assocGet] at h
  | cons e rest ih =>
    cases e with
    | mk k0 v0 =>
      by_cases hk : k0 = k
      · subst hk
        rw [assocGet_cons_eq] at h
        cases h
        exact List.mem_cons_self _ _
      · rw [assocGet_cons_ne _ _ hk] at h
        exact List.mem_cons_of_mem _ (ih h)

theorem assocSet_mem {κ α : Type} [DecidableEq κ] :
    ∀ (m : List (κ × α)) (k : κ) (v : α) (e : κ × α), e ∈ assocSet m k v →
      e ∈ m ∨ e = (k, v) := by
  intro m k v e h
  induction m with
  | nil =>
    simp only [assocSet, List.mem_singleton] at h
    exact Or.inr h
  | cons e0 rest ih =>
    cases e0 with
    | mk k0 v0 =>
      by_cases hk : k0 = k
      · simp only [assocSet, if_pos hk, List.mem_cons] at h
        rcases h with h | h
        · exact Or.inr (by rw [h, hk])
        · exact Or.inl (List.mem_cons_of_mem _ h)
      · simp only [assocSet, if_neg hk, List.mem_cons] at h
        rcases h with h | h
        · exact Or.inl (by rw [h]; exact List.mem_cons_self _ _)
        · rcases ih h with h2 | h2
          · exact Or.inl (List.mem_cons_of_mem _ h2)
          · exact Or.inr h2

theorem assocSet_keys_nodup {κ α : Type} [DecidableEq κ]
    (m : List (κ × α)) (k : κ) (v : α) (h : (m.map Prod.fst).Nodup) :
    ((assocSet m k v).map Prod.fst).Nodup := by
  by_cases hk : k ∈ m.map Prod.fst
  · rw [assocSet_keys_mem m k v hk]; exact h
  · rw [assocSet_fresh m k v hk]
    simp only [List.map_append, List.map_cons, List.map_nil]
    rw [List.nodup_append]
    exact ⟨h, List.nodup_singleton k, by simpa using fun hh => hk hh⟩

theorem invCount_assocSet (inv : InvIndex) (tok : String) (c : Chunk)
    (t : String) :
    invCount (assocSet inv tok c) t +
      (if tok = t then ((assocGet inv tok).getD []).length else 0) =
    invCount inv t + (if tok = t then c.length else 0) := by
  induction inv with
  | nil => simp [assocSet, invCount, assocGet]
  | cons e rest ih =>
    cases e with
    | mk k w =>
      by_cases hk : k = tok
      · subst hk
        rw [show assocSet ((k, w) :: rest) k c = (k, c) :: rest from by
          simp [assocSet]]
        rw [assocGet_cons_eq]
        simp only [invCount, List.map_cons, List.sum_cons, Option.getD_some]
        by_cases ht : k = t
        · simp [ht]
          omega
        · simp [ht]
      · rw [show assocSet ((k, w) :: rest) tok c =
          (k, w) :: assocSet rest tok c from by simp [assocSet, hk]]
        rw [assocGet_cons_ne _ _ hk]
        simp only [invCount, List.map_cons, List.sum_cons] at ih ⊢
        omega

theorem invTotal_assocSet (inv : InvIndex) (tok : String) (c : Chunk) :
    invTotal (assocSet inv tok c) + ((assocGet inv tok).getD []).length =
    invTotal inv + c.length := by
  induction inv with
  | nil => simp [assocSet, invTotal, assocGet]
  | cons e rest ih =>
    cases e with
    | mk k w =>
      by_cases hk : k = tok
      · subst hk
        rw [show assocSet ((k, w) :: rest) k c = (k, c) :: rest from by
          simp [assocSet]]
        rw [assocGet_cons_eq]
        simp only [invTotal, List.map_cons, List.sum_cons, Option.getD_some]
        omega
      · rw [show assocSet ((k, w) :: rest) tok c =
          (k, w) :: assocSet rest tok c from by simp [assocSet, hk]]
        rw [assocGet_cons_ne _ _ hk]
        simp only [invTotal, List.map_cons, List.sum_cons] at ih ⊢
        omega

/-! ### Lemmas about `dumpIndex` -/

theorem dumpIndex_terms (inv : InvIndex) :
    (dumpIndex inv).map Row.term =
      List.insertionSort (· ≤ ·) (inv.map Prod.fst) := by
  simp only [dumpIndex, List.map_map]
  rw [show (Row.term ∘ fun t =>
    ({ term := t, chunk := (assocGet inv t).getD [] } : Row)) = fun t => t
    from rfl]
  exact List.map_id _

theorem dumpIndex_sorted (inv : InvIndex) (h : (inv.map Prod.fst).Nodup) :
    ((dumpIndex inv).map Row.term).Pairwise (· < ·) := by
  rw [dumpIndex_terms]
  have hs : (List.insertionSort (· ≤ ·) (inv.map Prod.fst)).Pairwise (· ≤ ·) :=
    List.sorted_insertionSort _ _
  have hn : (List.insertionSort (· ≤ ·) (inv.map Prod.fst)).Nodup :=
    (List.perm_insertionSort _ _).nodup_iff.mpr h
  exact (hs.and hn).imp (fun hab => lt_of_le_of_ne hab.1 hab.2)

theorem dumpIndex_rowsTotal (inv : InvIndex)
    (h : (inv.map Prod.fst).Nodup) :
    rowsTotal (dumpIndex inv) = invTotal inv := by
  have h1 : rowsTotal (dumpIndex inv) =
      ((List.insertionSort (· ≤ ·) (inv.map Prod.fst)).map
        (fun k => ((assocGet inv k).getD []).length)).sum := by
    simp only [rowsTotal, dumpIndex, List.map_map]
    rfl
  rw [h1,
    ((List.perm_insertionSort (· ≤ ·) (inv.map Prod.fst)).map
      (fun k => ((assocGet inv k).getD []).length)).sum_eq]
  exact keysMapGet_sum [] (fun _ c => c.length) inv h

theorem dumpIndex_rowsCount (inv : InvIndex) (t : String)
    (h : (inv.map Prod.fst).Nodup) :
    rowsCount (dumpIndex inv) t = invCount inv t := by
  have h1 : rowsCount (dumpIndex inv) t =
      ((List.insertionSort (· ≤ ·) (inv.map Prod.fst)).map
        (fun k => if k = t then ((assocGet inv k).getD []).length else 0)).sum := by
    simp only [rowsCount, dumpIndex, List.map_map]
    rfl
  rw [h1,
    ((List.perm_insertionSort (· ≤ ·) (inv.map Prod.fst)).map
      (fun k => if k = t then ((assocGet inv k).getD []).length else 0)).sum_eq]
  exact keysMapGet_sum [] (fun k c => if k = t then c.length else 0) inv h

/-! ### Lemmas about `indexInsert` and `indexDoc` -/

theorem newChunk_length (mode : Mode) (old : Chunk) (id : Nat) (ps : List Nat)
    (hf : ∀ p ∈ old, p.1 ≠ id) :
    (newChunk mode old id ps).length = old.length + 1 := by
  cases mode with
  | nonPositional => simp [newChunk]
  | positional =>
    rw [newChunk, assocSet_fresh old id ps (fun hm => by
      rcases List.mem_map.mp hm with ⟨p, hp, hpe⟩
      exact hf p hp hpe)]
    simp

theorem indexInsert_keys_nodup (mode : Mode) (inv : InvIndex) (tok : String)
    (id : Nat) (ps : List Nat) (h : (inv.map Prod.fst).Nodup) :
    ((indexInsert mode inv tok id ps).map Prod.fst).Nodup :=
  assocSet_keys_nodup _ _ _ h

theorem indexInsert_mem (mode : Mode) (inv : InvIndex) (tok : String)
    (id : Nat) (ps : List Nat) (e : String × Chunk)
    (he : e ∈ indexInsert mode inv tok id ps) :
    e ∈ inv ∨ (e.1 = tok ∧
      ∀ p ∈ e.2, p ∈ (assocGet inv tok).getD [] ∨ p.1 = id) := by
  rcases assocSet_mem _ _ _ _ he with h | h
  · exact Or.inl h
  · right
    rw [h]
    refine ⟨rfl, fun p hp => ?_⟩
    cases mode with
    | nonPositional =>
      rw [newChunk] at hp
      simp only [List.mem_append, List.mem_singleton] at hp
      rcases hp with hp | hp
      · exact Or.inl hp
      · exact Or.inr (by rw [hp])
    | positional =>
      rw [newChunk] at hp
      rcases assocSet_mem _ _ _ _ hp with h2 | h2
      · exact Or.inl h2
      · exact Or.inr (by rw [h2])

theorem oldChunk_fresh (inv : InvIndex) (tok : String) (id : Nat)
    (sofar : List String) (hfr : invFresh inv id sofar)
    (hnot : tok ∉ sofar) :
    ∀ p ∈ (assocGet inv tok).getD [], p.1 ≠ id := by
  intro p hp
  cases hg : assocGet inv tok with
  | none => rw [hg] at hp; simp at hp
  | some v =>
    rw [hg] at hp
    simp only [Option.getD_some] at hp
    intro hpe
    exact hnot (hfr (tok, v) (assocGet_mem inv tok v hg) p hp hpe)

theorem indexInsert_invTotal (mode : Mode) (inv : InvIndex) (tok : String)
    (id : Nat) (ps : List Nat)
    (hf : ∀ p ∈ (assocGet inv tok).getD [], p.1 ≠ id) :
    invTotal (indexInsert mode inv tok id ps) = invTotal inv + 1 := by
  have h1 := invTotal_assocSet inv tok
    (newChunk mode ((assocGet inv tok).getD []) id ps)
  have h2 := newChunk_length mode ((assocGet inv tok).getD []) id ps hf
  rw [indexInsert]
  omega

theorem indexInsert_invCount (mode : Mode) (inv : InvIndex) (tok : String)
    (id : Nat) (ps : List Nat) (t : String)
    (hf : ∀ p ∈ (assocGet inv tok).getD [], p.1 ≠ id) :
    invCount (indexInsert mode inv tok id ps) t =
      invCount inv t + (if tok = t then 1 else 0) := by
  have h1 := invCount_assocSet inv tok
    (newChunk mode ((assocGet inv tok).getD []) id ps) t
  have h2 := newChunk_length mode ((assocGet inv tok).getD []) id ps hf
  rw [indexInsert]
  by_cases ht : tok = t
  · subst ht
    simp only [eq_self_iff_true, if_true] at h1 ⊢
    omega
  · simp only [ht, if_false] at h1 ⊢
    omega

theorem indexInsert_invFresh (mode : Mode) (inv : InvIndex) (tok : String)
    (id : Nat) (ps : List Nat) (sofar : List String)
    (hfr : invFresh inv id sofar) :
    invFresh (indexInsert mode inv tok id ps) id (tok :: sofar) := by
  intro e he p hp hpe
  rcases indexInsert_mem mode inv tok id ps e he with h | h
  · exact List.mem_cons_of_mem _ (hfr e h p hp hpe)
  · rw [h.1]; exact List.mem_cons_self _ _

theorem invFresh_mono (inv : InvIndex) (id : Nat) {s1 s2 : List String}
    (h : invFresh inv id s1) (hs : ∀ x ∈ s1, x ∈ s2) :
    invFresh inv id s2 :=
  fun e he p hp hpe => hs _ (h e he p hp hpe)

theorem indexDoc_go (mode : Mode) (id : Nat) :
    ∀ (toks : List (String × List Nat)) (inv : InvIndex)
      (sofar : List String),
      (inv.map Prod.fst).Nodup → invFresh inv id sofar →
      (∀ x ∈ toks, x.1 ∉ sofar) → (toks.map Prod.fst).Nodup →
      (((toks.foldl (fun acc p => indexInsert mode acc p.1 id p.2)
          inv).map Prod.fst).Nodup ∧
        invFresh (toks.foldl (fun acc p => indexInsert mode acc p.1 id p.2)
          inv) id (toks.map Prod.fst ++ sofar)) ∧
      invTotal (toks.foldl (fun acc p => indexInsert mode acc p.1 id p.2)
        inv) = invTotal inv + toks.length ∧
      (∀ t, invCount (toks.foldl (fun acc p => indexInsert mode acc p.1 id p.2)
        inv) t = invCount inv t +
          (if t ∈ toks.map Prod.fst then 1 else 0)) := by
  intro toks
  induction toks with
  | nil =>
    intro inv sofar hk hfr _ _
    refine ⟨⟨hk, hfr⟩, by simp, fun t => by simp⟩
  | cons x rest ih =>
    intro inv sofar hk hfr hnot hnd
    have hxfresh : ∀ p ∈ (assocGet inv x.1).getD [], p.1 ≠ id :=
      oldChunk_fresh inv x.1 id sofar hfr (hnot x (List.mem_cons_self _ _))
    have hk1 : ((indexInsert mode inv x.1 id x.2).map Prod.fst).Nodup :=
      indexInsert_keys_nodup mode inv x.1 id x.2 hk
    have hfr1 : invFresh (indexInsert mode inv x.1 id x.2) id (x.1 :: sofar) :=
      indexInsert_invFresh mode inv x.1 id x.2 sofar hfr
    simp only [List.map_cons, List.nodup_cons] at hnd
    have hnot1 : ∀ y ∈ rest, y.1 ∉ x.1 :: sofar := by
      intro y hy
      simp only [List.mem_cons, not_or]
      constructor
      · intro hyx
        exact hnd.1 (hyx ▸ List.mem_map_of_mem Prod.fst hy)
      · exact hnot y (List.mem_cons_of_mem _ hy)
    rcases ih (indexInsert mode inv x.1 id x.2) (x.1 :: sofar) hk1 hfr1
      hnot1 hnd.2 with ⟨⟨hk2, hfr2⟩, htot2, hcnt2⟩
    simp only [List.foldl_cons]
    refine ⟨⟨hk2, ?_⟩, ?_, ?_⟩
    · refine invFresh_mono _ _ hfr2 ?_
      intro s hs
      simp only [List.map_cons, List.cons_append, List.mem_cons,
        List.mem_append] at hs ⊢
      tauto
    · rw [htot2, indexInsert_invTotal mode inv x.1 id x.2 hxfresh]
      simp only [List.length_cons]
      omega
    · intro t
      rw [hcnt2 t, indexInsert_invCount mode inv x.1 id x.2 t hxfresh]
      simp only [List.map_cons, List.mem_cons]
      by_cases hxt : x.1 = t
      · have hnr : t ∉ rest.map Prod.fst := by rw [← hxt]; exact hnd.1
        simp [hxt, hnr]
      · have hxt2 : ¬ t = x.1 := fun hh => hxt hh.symm
        by_cases htr : t ∈ rest.map Prod.fst
        · simp [hxt, htr, hxt2]
        · simp [hxt, htr, hxt2]

/-! ### Builder invariants -/

theorem docsLe_mono (inv : InvIndex) {n m : Nat} (h : docsLe inv n)
    (hnm : n ≤ m) : docsLe inv m :=
  fun e he p hp => le_trans (h e he p hp) hnm

theorem indexInsert_docsLe (mode : Mode) (inv : InvIndex) (tok : String)
    (id : Nat) (ps : List Nat) (n : Nat) (h : docsLe inv n) (hid : id ≤ n) :
    docsLe (indexInsert mode inv tok id ps) n := by
  intro e he p hp
  rcases indexInsert_mem mode inv tok id ps e he with hm | hm
  · exact h e hm p hp
  · rcases hm.2 p hp with h2 | h2
    · cases hg : assocGet inv tok with
      | none => rw [hg] at h2; simp at h2
      | some v =>
        rw [hg] at h2
        simp only [Option.getD_some] at h2
        exact h (tok, v) (assocGet_mem inv tok v hg) p h2
    · rw [h2]; exact hid

theorem indexDoc_docsLe (mode : Mode) (id n : Nat) (hid : id ≤ n) :
    ∀ (doc : List (String × List Nat)) (inv : InvIndex), docsLe inv n →
      docsLe (doc.foldl (fun acc p => indexInsert mode acc p.1 id p.2) inv)
        n := by
  intro doc
  induction doc with
  | nil => intro inv h; exact h
  | cons x rest ih =>
    intro inv h
    exact ih _ (indexInsert_docsLe mode inv x.1 id x.2 n h hid)

theorem anyTerm_iff (d : Doc) (t : String) :
    (d.any (fun p => p.1 = t) = true) ↔ t ∈ d.map Prod.fst := by
  simp [List.any_eq_true, List.mem_map]

theorem countDocs_cons (d : Doc) (rest : List Doc) (t : String) :
    countDocsContaining (d :: rest) t =
      (if t ∈ d.map Prod.fst then 1 else 0) + countDocsContaining rest t := by
  simp only [countDocsContaining, List.filter_cons]
  by_cases h : t ∈ d.map Prod.fst
  · rw [if_pos ((anyTerm_iff d t).mpr h), if_pos h, List.length_cons]
    omega
  · rw [if_neg (fun hh => h ((anyTerm_iff d t).mp hh)), if_neg h]
    omega

theorem indexDoc_effects (mode : Mode) (inv : InvIndex) (n : Nat) (doc : Doc)
    (hk : (inv.map Prod.fst).Nodup) (hdl : docsLe inv n)
    (hnd : (doc.map Prod.fst).Nodup) :
    ((indexDoc mode inv (n + 1) doc).map Prod.fst).Nodup ∧
    invTotal (indexDoc mode inv (n + 1) doc) = invTotal inv + doc.length ∧
    (∀ t, invCount (indexDoc mode inv (n + 1) doc) t =
      invCount inv t + (if t ∈ doc.map Prod.fst then 1 else 0)) ∧
    docsLe (indexDoc mode inv (n + 1) doc) (n + 1) := by
  have hfr : invFresh inv (n + 1) [] := by
    intro e he p hp hpe
    have := hdl e he p hp
    omega
  have hnot : ∀ x ∈ doc, x.1 ∉ ([] : List String) := by simp
  rcases indexDoc_go mode (n + 1) doc inv [] hk hfr hnot hnd with
    ⟨⟨hk2, _⟩, htot, hcnt⟩
  refine ⟨hk2, htot, hcnt, ?_⟩
  exact indexDoc_docsLe mode (n + 1) (n + 1) le_rfl doc inv
    (docsLe_mono inv hdl (Nat.le_succ n))

theorem blocksPostings_append (bs : List (List Row)) (b : List Row) :
    blocksPostings (bs ++ [b]) = blocksPostings bs + rowsTotal b := by
  simp [blocksPostings]

theorem blocksCount_append (bs : List (List Row)) (b : List Row)
    (t : String) :
    blocksCount (bs ++ [b]) t = blocksCount bs t + rowsCount b t := by
  simp [blocksCount]

theorem buildStep_eq_flush (mode : Mode) (maxPost : Int) (st : BuildState)
    (doc : Doc) (hc : (st.count : Int) > maxPost) :
    buildStep mode maxPost st doc =
      { inv := indexDoc mode [] (st.docId + 1) doc
        count := 0 + doc.length
        blocks := st.blocks ++ [dumpIndex st.inv]
        nrPostings := st.nrPostings + doc.length
        docId := st.docId + 1 } := by
  rw [buildStep, if_pos hc]
  rfl

theorem buildStep_eq_noflush (mode : Mode) (maxPost : Int) (st : BuildState)
    (doc : Doc) (hc : ¬ (st.count : Int) > maxPost) :
    buildStep mode maxPost st doc =
      { inv := indexDoc mode st.inv (st.docId + 1) doc
        count := st.count + doc.length
        blocks := st.blocks
        nrPostings := st.nrPostings + doc.length
        docId := st.docId + 1 } := by
  rw [buildStep, if_neg hc]

theorem buildStep_effects (mode : Mode) (maxPost : Int) (st : BuildState)
    (doc : Doc) (hk : (st.inv.map Prod.fst).Nodup)
    (hdl : docsLe st.inv st.docId)
    (hbl : ∀ b ∈ st.blocks, ((b.map Row.term).Pairwise (· < ·)))
    (hnd : (doc.map Prod.fst).Nodup) :
    (((buildStep mode maxPost st doc).inv.map Prod.fst).Nodup ∧
      docsLe (buildStep mode maxPost st doc).inv
        (buildStep mode maxPost st doc).docId ∧
      (∀ b ∈ (buildStep mode maxPost st doc).blocks,
        ((b.map Row.term).Pairwise (· < ·)))) ∧
    blocksPostings (buildStep mode maxPost st doc).blocks +
        invTotal (buildStep mode maxPost st doc).inv =
      blocksPostings st.blocks + invTotal st.inv + doc.length ∧
    (∀ t, blocksCount (buildStep mode maxPost st doc).blocks t +
        invCount (buildStep mode maxPost st doc).inv t =
      blocksCount st.blocks t + invCount st.inv t +
        (if t ∈ doc.map Prod.fst then 1 else 0)) ∧
    (buildStep mode maxPost st doc).nrPostings =
      st.nrPostings + doc.length ∧
    (buildStep mode maxPost st doc).docId = st.docId + 1 := by
  by_cases hc : (st.count : Int) > maxPost
  · rw [buildStep_eq_flush mode maxPost st doc hc]
    rcases indexDoc_effects mode [] st.docId doc (by simp)
      (by intro e he; simp at he) hnd with ⟨hk2, htot2, hcnt2, hdl2⟩
    refine ⟨⟨hk2, hdl2, ?_⟩, ?_, ?_, rfl, rfl⟩
    · intro b hb
      simp only [List.mem_append, List.mem_singleton] at hb
      rcases hb with hb | hb
      · exact hbl b hb
      · rw [hb]; exact dumpIndex_sorted st.inv hk
    · show blocksPostings (st.blocks ++ [dumpIndex st.inv]) +
        invTotal (indexDoc mode [] (st.docId + 1) doc) = _
      rw [blocksPostings_append, dumpIndex_rowsTotal st.inv hk, htot2]
      have hz : invTotal ([] : InvIndex) = 0 := rfl
      omega
    · intro t
      show blocksCount (st.blocks ++ [dumpIndex st.inv]) t +
        invCount (indexDoc mode [] (st.docId + 1) doc) t = _
      rw [blocksCount_append, dumpIndex_rowsCount st.inv t hk, hcnt2 t]
      have hz : invCount ([] : InvIndex) t = 0 := rfl
      omega
  · rw [buildStep_eq_noflush mode maxPost st doc hc]
    rcases indexDoc_effects mode st.inv st.docId doc hk hdl hnd with
      ⟨hk2, htot2, hcnt2, hdl2⟩
    refine ⟨⟨hk2, hdl2, hbl⟩, ?_, ?_, rfl, rfl⟩
    · show blocksPostings st.blocks +
        invTotal (indexDoc mode st.inv (st.docId + 1) doc) = _
      rw [htot2]
      omega
    · intro t
      show blocksCount st.blocks t +
        invCount (indexDoc mode st.inv (st.docId + 1) doc) t = _
      rw [hcnt2 t]
      omega

theorem buildFold_effects (mode : Mode) (maxPost : Int) :
    ∀ (corpus : List Doc) (st : BuildState),
      (st.inv.map Prod.fst).Nodup → docsLe st.inv st.docId →
      (∀ b ∈ st.blocks, ((b.map Row.term).Pairwise (· < ·))) →
      TokensOk corpus →
      (((corpus.foldl (buildStep mode maxPost) st).inv.map Prod.fst).Nodup ∧
        docsLe (corpus.foldl (buildStep mode maxPost) st).inv
          (corpus.foldl (buildStep mode maxPost) st).docId ∧
        (∀ b ∈ (corpus.foldl (buildStep mode maxPost) st).blocks,
          ((b.map Row.term).Pairwise (· < ·)))) ∧
      blocksPostings (corpus.foldl (buildStep mode maxPost) st).blocks +
          invTotal (corpus.foldl (buildStep mode maxPost) st).inv =
        blocksPostings st.blocks + invTotal st.inv +
          (corpus.map List.length).sum ∧
      (∀ t, blocksCount (corpus.foldl (buildStep mode maxPost) st).blocks t +
          invCount (corpus.foldl (buildStep mode maxPost) st).inv t =
        blocksCount st.blocks t + invCount st.inv t +
          countDocsContaining corpus t) ∧
      (corpus.foldl (buildStep mode maxPost) st).nrPostings =
        st.nrPostings + (corpus.map List.length).sum ∧
      (corpus.foldl (buildStep mode maxPost) st).docId =
        st.docId + corpus.length := by
  intro corpus
  induction corpus with
  | nil =>
    intro st hk hdl hbl _
    refine ⟨⟨hk, hdl, hbl⟩, by simp, fun t => by
      simp [countDocsContaining], by simp, by simp⟩
  | cons d rest ih =>
    intro st hk hdl hbl htok
    have hnd : (d.map Prod.fst).Nodup := htok d (List.mem_cons_self _ _)
    have htok2 : TokensOk rest := fun x hx => htok x (List.mem_cons_of_mem _ hx)
    rcases buildStep_effects mode maxPost st d hk hdl hbl hnd with
      ⟨⟨hk1, hdl1, hbl1⟩, htot1, hcnt1, hnp1, hdid1⟩
    rcases ih (buildStep mode maxPost st d) hk1 hdl1 hbl1 htok2 with
      ⟨hinv2, htot2, hcnt2, hnp2, hdid2⟩
    simp only [List.foldl_cons]
    refine ⟨hinv2, ?_, ?_, ?_, ?_⟩
    · rw [htot2]
      simp only [List.map_cons, List.sum_cons]
      omega
    · intro t
      rw [hcnt2 t, countDocs_cons]
      have := hcnt1 t
      omega
    · rw [hnp2, hnp1]
      simp only [List.map_cons, List.sum_cons]
      omega
    · rw [hdid2, hdid1]
      simp only [List.length_cons]
      omega

theorem buildRun_eq (mode : Mode) (maxPost : Int) (corpus : List Doc) :
    buildRun mode maxPost corpus =
      (if (corpus.foldl (buildStep mode maxPost) ⟨[], 0, [], 0, 0⟩).inv = []
        then corpus.foldl (buildStep mode maxPost) ⟨[], 0, [], 0, 0⟩
        else buildFlush
          (corpus.foldl (buildStep mode maxPost) ⟨[], 0, [], 0, 0⟩)) := rfl

theorem buildRun_effects (mode : Mode) (maxPost : Int) (corpus : List Doc)
    (htok : TokensOk corpus) :
    (buildRun mode maxPost corpus).inv = [] ∧
    (∀ b ∈ (buildRun mode maxPost corpus).blocks,
      ((b.map Row.term).Pairwise (· < ·))) ∧
    blocksPostings (buildRun mode maxPost corpus).blocks =
      (corpus.map List.length).sum ∧
    (∀ t, blocksCount (buildRun mode maxPost corpus).blocks t =
      countDocsContaining corpus t) ∧
    (buildRun mode maxPost corpus).nrPostings =
      (corpus.map List.length).sum ∧
    (buildRun mode maxPost corpus).docId = corpus.length := by
  rcases buildFold_effects mode maxPost corpus ⟨[], 0, [], 0, 0⟩ (by simp)
    (by intro e he; simp at he) (by simp) htok with
    ⟨⟨hk, _, hbl⟩, htot, hcnt, hnp, hdid⟩
  dsimp only at htot hcnt hnp hdid
  rw [buildRun_eq]
  by_cases hinv : (corpus.foldl (buildStep mode maxPost) ⟨[], 0, [], 0, 0⟩).inv = []
  · rw [if_pos hinv]
    rw [hinv] at htot hcnt
    have hz : invTotal ([] : InvIndex) = 0 := rfl
    have hzc : ∀ t, invCount ([] : InvIndex) t = 0 := fun t => rfl
    refine ⟨hinv, hbl, ?_, ?_, ?_, ?_⟩
    · have h0 : blocksPostings ([] : List (List Row)) = 0 := rfl
      omega
    · intro t
      have := hcnt t
      have h0 : blocksCount ([] : List (List Row)) t = 0 := rfl
      have := hzc t
      omega
    · simpa using hnp
    · simpa using hdid
  · rw [if_neg hinv]
    refine ⟨rfl, ?_, ?_, ?_, ?_, ?_⟩
    · intro b hb
      show ((b.map Row.term).Pairwise (· < ·))
      have hb2 : b ∈ (corpus.foldl (buildStep mode maxPost)
          ⟨[], 0, [], 0, 0⟩).blocks ++
          [dumpIndex (corpus.foldl (buildStep mode maxPost)
            ⟨[], 0, [], 0, 0⟩).inv] := hb
      simp only [List.mem_append, List.mem_singleton] at hb2
      rcases hb2 with hb2 | hb2
      · exact hbl b hb2
      · rw [hb2]; exact dumpIndex_sorted _ hk
    · show blocksPostings ((corpus.foldl (buildStep mode maxPost)
        ⟨[], 0, [], 0, 0⟩).blocks ++ [dumpIndex _]) = _
      rw [blocksPostings_append, dumpIndex_rowsTotal _ hk]
      have h0 : blocksPostings ([] : List (List Row)) = 0 := rfl
      have hz : invTotal ([] : InvIndex) = 0 := rfl
      omega
    · intro t
      show blocksCount ((corpus.foldl (buildStep mode maxPost)
        ⟨[], 0, [], 0, 0⟩).blocks ++ [dumpIndex _]) t = _
      rw [blocksCount_append, dumpIndex_rowsCount _ t hk]
      have h0 : blocksCount ([] : List (List Row)) t = 0 := rfl
      have hz : invCount ([] : InvIndex) t = 0 := rfl
      have := hcnt t
      omega
    · simpa using hnp
    · simpa using hdid

/-! ### Zero and nonpositive threshold behaviour -/

theorem tdiv_nonpos_of (a b : Int) (ha : a ≤ 0) (hb : 0 ≤ b) :
    a.tdiv b ≤ 0 := by
  have h1 : 0 ≤ (-a).tdiv b := Int.tdiv_nonneg (by omega) hb
  have h2 : (-a).tdiv b = -(a.tdiv b) := Int.neg_tdiv a b
  omega

theorem buildFold_empty (mode : Mode) (maxPost : Int) (hm : 0 ≤ maxPost) :
    ∀ (corpus : List Doc) (n : Nat), (∀ d ∈ corpus, d = []) →
      corpus.foldl (buildStep mode maxPost) ⟨[], 0, [], 0, n⟩ =
        ⟨[], 0, [], 0, n + corpus.length⟩ := by
  intro corpus
  induction corpus with
  | nil => intro n _; simp
  | cons d rest ih =>
    intro n hd
    have hd0 : d = [] := hd d (List.mem_cons_self _ _)
    subst hd0
    have hstep : buildStep mode maxPost ⟨[], 0, [], 0, n⟩ ([] : Doc) =
        (⟨[], 0, [], 0, n + 1⟩ : BuildState) := by
      rw [buildStep_eq_noflush mode maxPost ⟨[], 0, [], 0, n⟩ []
        (by show ¬ ((0 : Nat) : Int) > maxPost; omega)]
      rfl
    rw [List.foldl_cons, hstep,
      ih (n + 1) (fun x hx => hd x (List.mem_cons_of_mem _ hx))]
    simp only [List.length_cons]
    congr 1
    omega

theorem buildRun_empty (mode : Mode) (maxPost : Int) (corpus : List Doc)
    (hm : 0 ≤ maxPost) (hd : ∀ d ∈ corpus, d = []) :
    buildRun mode maxPost corpus = ⟨[], 0, [], 0, corpus.length⟩ := by
  rw [buildRun_eq, buildFold_empty mode maxPost hm corpus 0 hd]
  show (⟨[], 0, [], 0, 0 + corpus.length⟩ : BuildState) = _
  rw [Nat.zero_add]

theorem readBlock_nonpos (budget : Int) (r : List Row) (g : InvIndex)
    (tv : Option String) (n : Nat) (hb : ¬ ((n : Int) < budget)) :
    readBlock budget r g tv n = (r, g, tv) := by
  rw [readBlock.eq_def, if_neg hb]

theorem readPhase_unbound (budget : Int) (hb : budget ≤ 0) (r : List Row)
    (g : InvIndex) (rest : List (List Row × InvIndex)) :
    readPhase budget ((r, g) :: rest) none = .error .unboundLocal := by
  rw [readPhase, readBlock_nonpos budget r g none 0 (by omega)]

theorem roundStep_unbound (mode : Mode) (maxPost budget : Int)
    (st : MergeState) (hb : budget ≤ 0)
    (hcur : ∃ r g rest, st.cursors = (r, g) :: rest)
    (htv : st.termVar = none) :
    roundStep mode maxPost budget st = .error .unboundLocal := by
  obtain ⟨r, g, rest, hc⟩ := hcur
  rw [roundStep, hc, htv, readPhase_unbound budget hb r g rest]
  rfl

theorem mergeLoop_error_step {mode : Mode} {mp b : Int} {np f : Nat}
    {st : MergeState} {e : RunError} (hlt : st.nrMerged < np)
    (hstep : roundStep mode mp b st = .error e) :
    mergeLoop mode mp b np (f + 1) st = .error e := by
  rw [mergeLoop, if_pos hlt, hstep]
  rfl

theorem mergeIndexBlocks_ne (mode : Mode) (maxPost : Int) (np : Nat)
    (blocks : List (List Row)) (fuel : Nat) (h : blocks.length ≠ 0) :
    mergeIndexBlocks mode maxPost np blocks fuel =
      Except.bind
        (mergeLoop mode maxPost
          (Int.tdiv (7 * maxPost) (10 * (blocks.length : Int))) np fuel
          (initMerge blocks))
        (fun st => if st.inv = [] then .ok st
          else .ok { st with
            finals := st.finals ++ [dumpIndex st.inv]
            inv := []
            bpc := 0 }) := by
  rw [mergeIndexBlocks, if_neg h]

theorem mergeIndexBlocks_budget0 (mode : Mode) (maxPost : Int) (np : Nat)
    (blocks : List (List Row)) (f : Nat) (hne : blocks.length ≠ 0)
    (hb : Int.tdiv (7 * maxPost) (10 * (blocks.length : Int)) ≤ 0)
    (hnp : 0 < np) :
    mergeIndexBlocks mode maxPost np blocks (f + 1) =
      .error .unboundLocal := by
  rw [mergeIndexBlocks_ne mode maxPost np blocks (f + 1) hne]
  have hcur : ∃ r g rest, (initMerge blocks).cursors = (r, g) :: rest := by
    rcases blocks with _ | ⟨b, bs⟩
    · exact absurd rfl hne
    · exact ⟨b, [], bs.map (fun x => (x, [])), rfl⟩
  have hrs := roundStep_unbound mode maxPost _ (initMerge blocks) hb hcur rfl
  rw [mergeLoop_error_step (show (initMerge blocks).nrMerged < np from hnp)
    hrs]
  rfl

theorem mergeIndexBlocks_fuel0 (mode : Mode) (maxPost : Int) (np : Nat)
    (blocks : List (List Row)) (hne : blocks.length ≠ 0) (hnp : 0 < np) :
    mergeIndexBlocks mode maxPost np blocks 0 = .error .outOfFuel := by
  rw [mergeIndexBlocks_ne mode maxPost np blocks 0 hne]
  rw [show mergeLoop mode maxPost
      (Int.tdiv (7 * maxPost) (10 * (blocks.length : Int))) np 0
      (initMerge blocks) = .error .outOfFuel from by
    rw [mergeLoop, if_pos (show (initMerge blocks).nrMerged < np from hnp)]]
  rfl

/-! ### Claim theorems (general statements) -/

/-- C2: the claim says posting-count conservation — final blocks together
holding exactly the postings counted by the build pass — holds for every
corpus and every threshold `max_postings_per_block > 0`.  It does not: on
the one-document corpus `{a}` with the positive threshold 1, the build
pass counts 1 posting into one temp block, but the merge's read budget is
`int((1 / 1) * 0.7) = 0`, so the first merge round reads no row and
crashes on the unbound local `term` — no final block is ever written and
the sum of final-block posting counts never equals `nr_postings = 1`. -/
theorem C2_conservation_fails_budget_zero :
    (buildRun .nonPositional 1 corpus2).nrPostings = 1 ∧
    (buildRun .nonPositional 1 corpus2).blocks.length = 1 ∧
    (0 : Int) < 1 ∧
    Int.tdiv (7 * 1) (10 * 1) = 0 ∧
    indexDataSource .nonPositional 1 corpus2 0 = .error .outOfFuel ∧
    (∀ f, indexDataSource .nonPositional 1 corpus2 (f + 1) =
      .error .unboundLocal) := by
  refine ⟨by decide, by decide, by decide, by decide, by decide, ?_⟩
  intro f
  exact indexDataSource_error .nonPositional 1 corpus2 (f + 1) .unboundLocal
    (mergeIndexBlocks_budget0 .nonPositional 1
      (buildRun .nonPositional 1 corpus2).nrPostings
      (buildRun .nonPositional 1 corpus2).blocks f (by decide) (by decide)
      (by decide))

/-- C3: the claim says a run whose threshold is large enough for a single
temp block and a run with any smaller positive threshold (multiple temp
blocks plus merge) produce identical term → postings maps and document
frequencies.  They do not: on `corpus3` (`{a, b, c}` and `{z}`), threshold
100 completes with the full single final block `[a, b, c, z]`, while
threshold 2 produces two temp blocks and then crashes in the first merge
round (read budget `int((2 / 2) * 0.7) = 0` leaves the local `term`
unbound), producing no term → postings map at all, at any fuel. -/
theorem C3_threshold_invariance_fails_budget_zero :
    (indexDataSource .nonPositional 100 corpus3 5).map RunResult.finals =
      .ok [[⟨"a", [(1, [])]⟩, ⟨"b", [(1, [])]⟩, ⟨"c", [(1, [])]⟩,
            ⟨"z", [(2, [])]⟩]] ∧
    (indexDataSource .nonPositional 100 corpus3 5).map
        RunResult.nrTempSegments = .ok 1 ∧
    (buildRun .nonPositional 2 corpus3).blocks.length = 2 ∧
    (0 : Int) < 2 ∧
    indexDataSource .nonPositional 2 corpus3 0 = .error .outOfFuel ∧
    (∀ f, indexDataSource .nonPositional 2 corpus3 (f + 1) =
      .error .unboundLocal) := by
  refine ⟨by decide, by decide, by decide, by decide, by decide, ?_⟩
  intro f
  exact indexDataSource_error .nonPositional 2 corpus3 (f + 1) .unboundLocal
    (mergeIndexBlocks_budget0 .nonPositional 2
      (buildRun .nonPositional 2 corpus3).nrPostings
      (buildRun .nonPositional 2 corpus3).blocks f (by decide) (by decide)
      (by decide))

/-- C4: the claim says the merge loop terminates — the count of merged
postings reaches the total after finitely many rounds — for every corpus
with at least one posting, every positive threshold and every number of
temp blocks, *including configurations where the per-round read budget
`floor((max_postings_per_block / N) * 0.7)` is small*.  Exactly those
configurations fail: on `corpus4` (`{a, b}`, 2 postings, one temp block)
with the positive threshold 1, the budget is `int(0.7) = 0`, the first
iteration of the `while` loop raises `UnboundLocalError`, and the merged
count (0) never reaches the total (2): with no fuel the loop is still
unfinished, and with any fuel the round aborts. -/
theorem C4_merge_crashes_on_small_budget :
    (buildRun .nonPositional 1 corpus4).nrPostings = 2 ∧
    (buildRun .nonPositional 1 corpus4).blocks.length = 1 ∧
    (0 : Int) < 1 ∧
    Int.tdiv (7 * 1) (10 * 1) = 0 ∧
    mergeLoop .nonPositional 1 0 2 0
      (initMerge (buildRun .nonPositional 1 corpus4).blocks) =
      .error .outOfFuel ∧
    (∀ f, mergeLoop .nonPositional 1 0 2 (f + 1)
      (initMerge (buildRun .nonPositional 1 corpus4).blocks) =
      .error .unboundLocal) ∧
    (∀ f, indexDataSource .nonPositional 1 corpus4 (f + 1) =
      .error .unboundLocal) := by
  refine ⟨by decide, by decide, by decide, by decide, by decide, ?_, ?_⟩
  · intro f
    exact mergeLoop_error_step (by decide) (by decide)
  · intro f
    exact indexDataSource_error .nonPositional 1 corpus4 (f + 1) .unboundLocal
      (mergeIndexBlocks_budget0 .nonPositional 1
        (buildRun .nonPositional 1 corpus4).nrPostings
        (buildRun .nonPositional 1 corpus4).blocks f (by decide) (by decide)
        (by decide))

/-- C10: an indexing run over a source whose documents all tokenize to no
terms produces zero temp blocks, and `merge_index_blocks` then divides
`max_postings_per_temp_block` by `nr_temp_index_segments = 0`:
`index_data_source` aborts with an unhandled `ZeroDivisionError` instead of
producing an empty index, for every positive threshold and any fuel. -/
theorem C10_zero_blocks_zero_division (mode : Mode) (maxPost : Int)
    (corpus : List Doc) (fuel : Nat) (hm : 0 < maxPost)
    (hd : ∀ d ∈ corpus, d = []) :
    indexDataSource mode maxPost corpus fuel = .error .zeroDivision := by
  have hb := buildRun_empty mode maxPost corpus (le_of_lt hm) hd
  show Except.bind (mergeIndexBlocks mode maxPost
    (buildRun mode maxPost corpus).nrPostings
    (buildRun mode maxPost corpus).blocks fuel) _ = _
  rw [hb]
  rfl

/-- C10 witness: the two-document corpus whose documents tokenize to nothing
aborts with the division by zero at the default threshold. -/
theorem C10_zero_blocks_zero_division_witness :
    0 < (1000000 : Int) ∧ (∀ d ∈ ([[], []] : List Doc), d = []) ∧
    indexDataSource .nonPositional 1000000 [[], []] 3 =
      .error .zeroDivision :=
  ⟨by decide, by decide,
    C10_zero_blocks_zero_division .nonPositional 1000000 [[], []] 3
      (by decide) (by decide)⟩

/-- C9 amended: the indexer performs no validation of
`max_postings_per_block` at all; a run configured with a threshold ≤ 0 on
any corpus with at least one posting is accepted, writes at least one temp
block (index output), and then aborts inside the merge with an unhandled
`UnboundLocalError` (the nonpositive read budget makes every round read
zero rows, so the local `term` is never assigned) — not with a
`ConfigurationError`. -/
theorem C9_threshold_not_validated (mode : Mode) (maxPost : Int)
    (corpus : List Doc) (fuel : Nat) (hm : maxPost ≤ 0)
    (htok : TokensOk corpus) (hp : 0 < (corpus.map List.length).sum)
    (hf : 0 < fuel) :
    indexDataSource mode maxPost corpus fuel = .error .unboundLocal ∧
    (buildRun mode maxPost corpus).blocks ≠ [] := by
  rcases buildRun_effects mode maxPost corpus htok with
    ⟨_, _, hbp, _, hnp, _⟩
  have hne : (buildRun mode maxPost corpus).blocks ≠ [] := by
    intro h
    rw [h] at hbp
    have hz : blocksPostings [] = 0 := rfl
    omega
  refine ⟨?_, hne⟩
  have hlen : ((buildRun mode maxPost corpus).blocks).length ≠ 0 :=
    fun h => hne (List.length_eq_zero.mp h)
  have hbudget : Int.tdiv (7 * maxPost)
      (10 * (((buildRun mode maxPost corpus).blocks).length : Int)) ≤ 0 := by
    apply tdiv_nonpos_of
    · have : (0 : Int) ≤ 7 := by omega
      exact mul_nonpos_iff.mpr (Or.inl ⟨this, hm⟩)
    · positivity
  have hcur : ∃ r g rest,
      (initMerge ((buildRun mode maxPost corpus).blocks)).cursors =
        (r, g) :: rest := by
    rcases hbl : (buildRun mode maxPost corpus).blocks with _ | ⟨b, bs⟩
    · exact absurd hbl hne
    · exact ⟨b, [], bs.map (fun x => (x, [])), rfl⟩
  have hrs : roundStep mode maxPost
      (Int.tdiv (7 * maxPost)
        (10 * (((buildRun mode maxPost corpus).blocks).length : Int)))
      (initMerge ((buildRun mode maxPost corpus).blocks)) =
      .error .unboundLocal :=
    roundStep_unbound _ _ _ _ hbudget hcur rfl
  rcases fuel with _ | f
  · omega
  show Except.bind (mergeIndexBlocks mode maxPost
    (buildRun mode maxPost corpus).nrPostings
    (buildRun mode maxPost corpus).blocks (f + 1)) _ = _
  rw [mergeIndexBlocks_ne mode maxPost _ _ _ hlen]
  rw [mergeLoop_error_step (by
    show (initMerge _).nrMerged < (buildRun mode maxPost corpus).nrPostings
    rw [hnp]
    exact hp) hrs]
  rfl

/-- C9 amended witness: threshold 0 on `corpusAB`. -/
theorem C9_threshold_not_validated_witness :
    (0 : Int) ≤ 0 ∧ TokensOk corpusAB ∧
    0 < ((corpusAB.map List.length).sum) ∧ 0 < 5 ∧
    (indexDataSource .nonPositional 0 corpusAB 5 = .error .unboundLocal ∧
      (buildRun .nonPositional 0 corpusAB).blocks ≠ []) :=
  ⟨by decide, by show ∀ d ∈ corpusAB, (d.map Prod.fst).Nodup; decide,
    by decide, by decide,
    C9_threshold_not_validated .nonPositional 0 corpusAB 5 (by decide)
      (by show ∀ d ∈ corpusAB, (d.map Prod.fst).Nodup; decide) (by decide)
      (by decide)⟩

/-! ### The Block Builder refines its specification -/

theorem builderSpec_foldl (mode : Mode) (maxPost : Int) :
    ∀ (corpus : List Doc) (st : BuildState),
      (if (corpus.foldl (buildStep mode maxPost) st).inv = []
        then corpus.foldl (buildStep mode maxPost) st
        else buildFlush (corpus.foldl (buildStep mode maxPost) st)) =
      builderSpecLoop mode maxPost corpus st.inv st.count st.blocks
        st.nrPostings st.docId := by
  intro corpus
  induction corpus with
  | nil =>
    intro st
    rw [builderSpecLoop, List.foldl_nil]
    by_cases h : st.inv = []
    · rw [if_pos h, if_pos h]
    · rw [if_neg h, if_neg h]
      rfl
  | cons d rest ih =>
    intro st
    rw [List.foldl_cons, builderSpecLoop, ih (buildStep mode maxPost st d)]
    by_cases hc : (st.count : Int) > maxPost
    · rw [if_pos hc, buildStep_eq_flush mode maxPost st d hc]
      dsimp only
      rw [Nat.zero_add]
    · rw [if_neg hc, buildStep_eq_noflush mode maxPost st d hc]

/-- C6: the accumulation pass behaves exactly as the claim describes it —
before each document the running count is compared to the threshold and the
structure is flushed exactly when the count exceeds it, each flush
serializing the sorted structure, resetting the count and clearing the
structure, with a final flush if and only if the structure is non-empty
(`buildRun = builderSpecRun`); and every temp block written is sorted
strictly ascending by term. -/
theorem C6_block_builder (mode : Mode) (maxPost : Int) (corpus : List Doc)
    (htok : TokensOk corpus) :
    buildRun mode maxPost corpus = builderSpecRun mode maxPost corpus ∧
    (∀ b ∈ (buildRun mode maxPost corpus).blocks,
      ((b.map Row.term).Pairwise (· < ·))) := by
  constructor
  · rw [buildRun_eq]
    exact builderSpec_foldl mode maxPost corpus ⟨[], 0, [], 0, 0⟩
  · exact (buildRun_effects mode maxPost corpus htok).2.1

/-- C6 witness: the builder of the `corpusAB` run at threshold 3. -/
theorem C6_block_builder_witness :
    TokensOk corpusAB ∧
    (buildRun .nonPositional 3 corpusAB =
        builderSpecRun .nonPositional 3 corpusAB ∧
      (∀ b ∈ (buildRun .nonPositional 3 corpusAB).blocks,
        ((b.map Row.term).Pairwise (· < ·)))) :=
  ⟨by show ∀ d ∈ corpusAB, (d.map Prod.fst).Nodup; decide,
    C6_block_builder .nonPositional 3 corpusAB
      (by show ∀ d ∈ corpusAB, (d.map Prod.fst).Nodup; decide)⟩

/-! ### Merge-side counting lemmas -/

theorem assocGet_assocSet_self {κ α : Type} [DecidableEq κ] :
    ∀ (m : List (κ × α)) (k : κ) (v : α),
      assocGet (assocSet m k v) k = some v := by
  intro m k v
  induction m with
  | nil => simp [assocSet, assocGet]
  | cons e rest ih =>
    cases e with
    | mk k0 v0 =>
      by_cases hk : k0 = k
      · subst hk
        rw [show assocSet ((k0, v0) :: rest) k0 v = (k0, v) :: rest from by
          simp [assocSet]]
        exact assocGet_cons_eq k0 v rest
      · rw [show assocSet ((k0, v0) :: rest) k v =
            (k0, v0) :: assocSet rest k v from by simp [assocSet, hk],
          assocGet_cons_ne _ _ hk]
        exact ih

theorem assocGet_assocSet_ne {κ α : Type} [DecidableEq κ] :
    ∀ (m : List (κ × α)) (k : κ) (v : α) (k2 : κ), k ≠ k2 →
      assocGet (assocSet m k v) k2 = assocGet m k2 := by
  intro m k v k2 hne
  induction m with
  | nil => simp [assocSet, assocGet, hne]
  | cons e rest ih =>
    cases e with
    | mk k0 v0 =>
      by_cases hk : k0 = k
      · subst hk
        rw [show assocSet ((k0, v0) :: rest) k0 v = (k0, v) :: rest from by
          simp [assocSet]]
        by_cases h2 : k0 = k2
        · exact absurd h2 hne
        · rw [assocGet_cons_ne _ _ h2, assocGet_cons_ne _ _ h2]
      · rw [show assocSet ((k0, v0) :: rest) k v =
            (k0, v0) :: assocSet rest k v from by simp [assocSet, hk]]
        by_cases h2 : k0 = k2
        · subst h2
          rw [assocGet_cons_eq, assocGet_cons_eq]
        · rw [assocGet_cons_ne _ _ h2, assocGet_cons_ne _ _ h2]
          exact ih

theorem masterDf_masterUpd_self (m : List (String × Nat × Nat)) (t : String)
    (n blk : Nat) : masterDf (masterUpd m t n blk) t = masterDf m t + n := by
  rw [masterUpd, masterDf, masterDf, assocGet_assocSet_self]
  rfl

theorem masterDf_masterUpd_ne (m : List (String × Nat × Nat))
    (t t2 : String) (n blk : Nat) (h : t ≠ t2) :
    masterDf (masterUpd m t n blk) t2 = masterDf m t2 := by
  rw [masterUpd, masterDf, masterDf, assocGet_assocSet_ne _ _ _ _ h]

theorem rowsTotal_cons (r : Row) (rest : List Row) :
    rowsTotal (r :: rest) = r.chunk.length + rowsTotal rest := by
  simp [rowsTotal]

theorem rowsCount_cons (r : Row) (rest : List Row) (t : String) :
    rowsCount (r :: rest) t =
      (if r.term = t then r.chunk.length else 0) + rowsCount rest t := by
  simp [rowsCount]

theorem invTotal_append_single (g : InvIndex) (t : String) (c : Chunk) :
    invTotal (g ++ [(t, c)]) = invTotal g + c.length := by
  simp [invTotal]

theorem invCount_append_single (g : InvIndex) (t : String) (c : Chunk)
    (t2 : String) :
    invCount (g ++ [(t, c)]) t2 =
      invCount g t2 + (if t = t2 then c.length else 0) := by
  simp [invCount]

theorem readBlock_cons (budget : Int) (row : Row) (rest : List Row)
    (g : InvIndex) (tv : Option String) (n : Nat) (hb : (n : Int) < budget) :
    readBlock budget (row :: rest) g tv n =
      readBlock budget rest (assocSet g row.term row.chunk) (some row.term)
        (n + row.chunk.length) := by
  rw [readBlock.eq_def, if_pos hb]

theorem readBlock_effects (budget : Int) :
    ∀ (r : List Row) (g : InvIndex) (tv : Option String) (n : Nat),
      CursorOk (r, g) →
      CursorOk ((readBlock budget r g tv n).1,
        (readBlock budget r g tv n).2.1) ∧
      rowsTotal (readBlock budget r g tv n).1 +
          invTotal (readBlock budget r g tv n).2.1 =
        rowsTotal r + invTotal g ∧
      (∀ t, rowsCount (readBlock budget r g tv n).1 t +
          invCount (readBlock budget r g tv n).2.1 t =
        rowsCount r t + invCount g t) := by
  intro r
  induction r with
  | nil =>
    intro g tv n hok
    rw [readBlock.eq_def]
    by_cases hb : (n : Int) < budget
    · rw [if_pos hb]
      exact ⟨hok, rfl, fun t => rfl⟩
    · rw [if_neg hb]
      exact ⟨hok, rfl, fun t => rfl⟩
  | cons row rest ih =>
    intro g tv n hok
    by_cases hb : (n : Int) < budget
    · rw [readBlock_cons budget row rest g tv n hb]
      rcases hok with ⟨hr, hg, hdisj⟩
      simp only [List.map_cons, List.nodup_cons] at hr
      have hfresh : row.term ∉ g.map Prod.fst := by
        intro hmem
        exact hdisj row.term hmem (List.mem_cons_self _ _)
      rw [assocSet_fresh g row.term row.chunk hfresh]
      have hok2 : CursorOk (rest, g ++ [(row.term, row.chunk)]) := by
        refine ⟨hr.2, ?_, ?_⟩
        · simp only [List.map_append, List.map_cons, List.map_nil]
          rw [List.nodup_append]
          exact ⟨hg, List.nodup_singleton _, by
            simpa using fun hh => hfresh hh⟩
        · intro t ht
          simp only [List.map_append, List.map_cons, List.map_nil,
            List.mem_append, List.mem_singleton] at ht
          rcases ht with ht | ht
          · intro hmem
            exact hdisj t ht (List.mem_cons_of_mem _ hmem)
          · rw [ht]
            exact hr.1
      rcases ih (g ++ [(row.term, row.chunk)]) (some row.term)
        (n + row.chunk.length) hok2 with ⟨hok3, htot3, hcnt3⟩
      refine ⟨hok3, ?_, ?_⟩
      · rw [htot3, rowsTotal_cons, invTotal_append_single]
        omega
      · intro t
        rw [hcnt3 t, rowsCount_cons, invCount_append_single]
        split_ifs <;> omega
    · rw [readBlock.eq_def, if_neg hb]
      exact ⟨hok, rfl, fun t => rfl⟩

theorem stagingTotal_cons (c : List Row × InvIndex)
    (cs : List (List Row × InvIndex)) :
    stagingTotal (c :: cs) =
      (rowsTotal c.1 + invTotal c.2) + stagingTotal cs := by
  simp [stagingTotal]

theorem stagingCount_cons (c : List Row × InvIndex)
    (cs : List (List Row × InvIndex)) (t : String) :
    stagingCount (c :: cs) t =
      (rowsCount c.1 t + invCount c.2 t) + stagingCount cs t := by
  simp [stagingCount]

theorem invTotal_cons (e : String × Chunk) (g : InvIndex) :
    invTotal (e :: g) = e.2.length + invTotal g := by
  simp [invTotal]

theorem invCount_cons (e : String × Chunk) (g : InvIndex) (t : String) :
    invCount (e :: g) t =
      (if e.1 = t then e.2.length else 0) + invCount g t := by
  simp [invCount]

theorem readPhase_effects (budget : Int) :
    ∀ (cs : List (List Row × InvIndex)) (tv : Option String)
      (res : List (List Row × InvIndex) × List String × Option String),
      readPhase budget cs tv = .ok res →
      (∀ c ∈ cs, CursorOk c) →
      (∀ c ∈ res.1, CursorOk c) ∧
      stagingTotal res.1 = stagingTotal cs ∧
      (∀ t, stagingCount res.1 t = stagingCount cs t) := by
  intro cs
  induction cs with
  | nil =>
    intro tv res h hok
    rw [readPhase] at h
    cases h
    exact ⟨by simp, rfl, fun t => rfl⟩
  | cons c rest ih =>
    intro tv res h hok
    rcases c with ⟨r, g⟩
    simp only [readPhase] at h
    rcases hreq : readBlock budget r g tv 0 with ⟨r2, g2, tv2⟩
    rw [hreq] at h
    have heff := readBlock_effects budget r g tv 0
      (hok (r, g) (List.mem_cons_self _ _))
    rw [hreq] at heff
    rcases heff with ⟨hok1, htot1, hcnt1⟩
    cases tv2 with
    | none => exact absurd h (by simp)
    | some t0 =>
      rcases hrp : readPhase budget rest (some t0) with e2 | y
      · rw [hrp] at h
        exact absurd h (by simp [Except.bind])
      · rw [hrp] at h
        simp only [Except.bind] at h
        cases h
        rcases ih (some t0) y hrp
          (fun c hc => hok c (List.mem_cons_of_mem _ hc)) with
          ⟨hok2, htot2, hcnt2⟩
        refine ⟨?_, ?_, ?_⟩
        · intro c hc
          rcases List.mem_cons.mp hc with hc | hc
          · rw [hc]; exact hok1
          · exact hok2 c hc
        · rw [stagingTotal_cons, stagingTotal_cons, htot2]
          dsimp only at htot1 ⊢
          omega
        · intro t
          rw [stagingCount_cons, stagingCount_cons, hcnt2 t]
          have := hcnt1 t
          dsimp only at this ⊢
          omega

theorem mergeStage_effects (mode : Mode) (boundary : String) (nrFinal : Nat) :
    ∀ (g : InvIndex) (inv : InvIndex) (master : List (String × Nat × Nat))
      (merged bpc : Nat),
      ((mergeStage mode boundary nrFinal g inv master merged bpc).1).Sublist
        g ∧
      (mergeStage mode boundary nrFinal g inv master merged bpc).2.2.2.1 +
          invTotal (mergeStage mode boundary nrFinal g inv master merged
            bpc).1 =
        merged + invTotal g ∧
      (∀ t, masterDf (mergeStage mode boundary nrFinal g inv master merged
            bpc).2.2.1 t +
          invCount (mergeStage mode boundary nrFinal g inv master merged
            bpc).1 t =
        masterDf master t + invCount g t) := by
  intro g
  induction g with
  | nil =>
    intro inv master merged bpc
    rw [mergeStage]
    exact ⟨List.Sublist.refl _, rfl, fun t => rfl⟩
  | cons e rest ih =>
    intro inv master merged bpc
    rcases e with ⟨t, c⟩
    rw [mergeStage]
    by_cases hle : t ≤ boundary
    · rw [if_pos hle]
      rcases ih (invMerge mode inv t c) (masterUpd master t c.length nrFinal)
        (merged + c.length) (bpc + c.length) with ⟨hsub, htot, hcnt⟩
      refine ⟨hsub.cons _, ?_, ?_⟩
      · rw [htot, invTotal_cons]
        dsimp only
        omega
      · intro t2
        rw [hcnt t2, invCount_cons]
        dsimp only
        by_cases ht : t = t2
        · subst ht
          rw [masterDf_masterUpd_self]
          simp only [eq_self_iff_true, if_true]
          omega
        · rw [masterDf_masterUpd_ne _ _ _ _ _ ht, if_neg ht]
          omega
    · rw [if_neg hle]
      rcases ih inv master merged bpc with ⟨hsub, htot, hcnt⟩
      dsimp only
      refine ⟨hsub.cons₂ _, ?_, ?_⟩
      · rw [invTotal_cons, invTotal_cons]
        dsimp only
        omega
      · intro t2
        rw [invCount_cons, invCount_cons]
        have := hcnt t2
        dsimp only at this ⊢
        omega

theorem cursorOk_sublist (r : List Row) (g g2 : InvIndex)
    (h : g2.Sublist g) (hok : CursorOk (r, g)) : CursorOk (r, g2) := by
  refine ⟨hok.1, hok.2.1.sublist (h.map Prod.fst), ?_⟩
  intro t ht
  exact hok.2.2 t ((h.map Prod.fst).subset ht)

theorem mergeAll_effects (mode : Mode) (boundary : String) (nrFinal : Nat) :
    ∀ (cs : List (List Row × InvIndex)) (inv : InvIndex)
      (master : List (String × Nat × Nat)) (merged bpc : Nat),
      (∀ c ∈ cs, CursorOk c) →
      (∀ c ∈ (mergeAll mode boundary nrFinal cs inv master merged bpc).1,
        CursorOk c) ∧
      (mergeAll mode boundary nrFinal cs inv master merged bpc).2.2.2.1 +
          stagingTotal (mergeAll mode boundary nrFinal cs inv master merged
            bpc).1 =
        merged + stagingTotal cs ∧
      (∀ t, masterDf (mergeAll mode boundary nrFinal cs inv master merged
            bpc).2.2.1 t +
          stagingCount (mergeAll mode boundary nrFinal cs inv master merged
            bpc).1 t =
        masterDf master t + stagingCount cs t) := by
  intro cs
  induction cs with
  | nil =>
    intro inv master merged bpc _
    rw [mergeAll]
    exact ⟨by simp, rfl, fun t => rfl⟩
  | cons c rest ih =>
    intro inv master merged bpc hok
    rcases c with ⟨r, g⟩
    rw [mergeAll]
    rcases mergeStage_effects mode boundary nrFinal g inv master merged bpc
      with ⟨hsub, htot1, hcnt1⟩
    rcases ih (mergeStage mode boundary nrFinal g inv master merged bpc).2.1
      (mergeStage mode boundary nrFinal g inv master merged bpc).2.2.1
      (mergeStage mode boundary nrFinal g inv master merged bpc).2.2.2.1
      (mergeStage mode boundary nrFinal g inv master merged bpc).2.2.2.2
      (fun c hc => hok c (List.mem_cons_of_mem _ hc)) with
      ⟨hok2, htot2, hcnt2⟩
    dsimp only
    refine ⟨?_, ?_, ?_⟩
    · intro c hc
      rcases List.mem_cons.mp hc with hc | hc
      · rw [hc]
        exact cursorOk_sublist r g _ hsub (hok (r, g) (List.mem_cons_self _ _))
      · exact hok2 c hc
    · rw [stagingTotal_cons, stagingTotal_cons]
      dsimp only
      omega
    · intro t
      rw [stagingCount_cons, stagingCount_cons]
      have h1 := hcnt1 t
      have h2 := hcnt2 t
      dsimp only at h1 h2 ⊢
      omega

theorem rowsCount_le (rows : List Row) (t : String) :
    rowsCount rows t ≤ rowsTotal rows := by
  induction rows with
  | nil => simp [rowsCount, rowsTotal]
  | cons r rest ih =>
    rw [rowsCount_cons, rowsTotal_cons]
    by_cases h : r.term = t
    · rw [if_pos h]; omega
    · rw [if_neg h]; omega

theorem invCount_le (g : InvIndex) (t : String) :
    invCount g t ≤ invTotal g := by
  induction g with
  | nil => simp [invCount, invTotal]
  | cons e rest ih =>
    rw [invCount_cons, invTotal_cons]
    by_cases h : e.1 = t
    · rw [if_pos h]; omega
    · rw [if_neg h]; omega

theorem stagingCount_le (cs : List (List Row × InvIndex)) (t : String) :
    stagingCount cs t ≤ stagingTotal cs := by
  induction cs with
  | nil => simp [stagingCount, stagingTotal]
  | cons c rest ih =>
    rw [stagingCount_cons, stagingTotal_cons]
    have h1 := rowsCount_le c.1 t
    have h2 := invCount_le c.2 t
    omega

theorem roundStep_preserves {mode : Mode} {mp budget : Int} {np : Nat}
    {C : String → Nat} {st st2 : MergeState}
    (h : roundStep mode mp budget st = .ok st2) (hok : MergeOk np C st) :
    MergeOk np C st2 := by
  rw [roundStep] at h
  rcases exceptBind_ok_inv _ _ _ h with ⟨rp, hrp, h2⟩
  rcases readPhase_effects budget st.cursors st.termVar rp hrp hok.cursors
    with ⟨hokc, htot, hcnt⟩
  rw [roundTail] at h2
  rcases hsort : List.insertionSort (· ≤ ·) rp.2.1 with _ | ⟨b, tl⟩
  · rw [hsort] at h2
    exact absurd h2 (by simp)
  · rw [hsort] at h2
    dsimp only at h2
    rcases mergeAll_effects mode b st.nrFinal rp.1 st.inv st.master
      st.nrMerged st.bpc hokc with ⟨hokm, htotm, hcntm⟩
    split at h2 <;> cases h2
    · refine ⟨?_, ?_, ?_⟩
      · intro c hc
        exact hokm c hc
      · dsimp only
        have h1 := hok.total
        omega
      · intro t
        dsimp only
        have h1 := hcntm t
        have h2 := hcnt t
        have h3 := hok.perTerm t
        omega
    · refine ⟨?_, ?_, ?_⟩
      · intro c hc
        exact hokm c hc
      · dsimp only
        have h1 := hok.total
        omega
      · intro t
        dsimp only
        have h1 := hcntm t
        have h2 := hcnt t
        have h3 := hok.perTerm t
        omega

theorem mergeLoop_ok {mode : Mode} {mp budget : Int} {np : Nat}
    {C : String → Nat} :
    ∀ (fuel : Nat) (st st2 : MergeState),
      mergeLoop mode mp budget np fuel st = .ok st2 → MergeOk np C st →
      MergeOk np C st2 ∧ np ≤ st2.nrMerged := by
  intro fuel
  induction fuel with
  | zero =>
    intro st st2 h hok
    rw [mergeLoop] at h
    by_cases hlt : st.nrMerged < np
    · rw [if_pos hlt] at h
      exact absurd h (by simp)
    · rw [if_neg hlt] at h
      cases h
      exact ⟨hok, by omega⟩
  | succ f ih =>
    intro st st2 h hok
    rw [mergeLoop] at h
    by_cases hlt : st.nrMerged < np
    · rw [if_pos hlt] at h
      rcases hrs : roundStep mode mp budget st with e | mid
      · rw [hrs] at h
        exact absurd h (by simp [Except.bind])
      · rw [hrs] at h
        simp only [Except.bind] at h
        exact ih mid st2 h (roundStep_preserves hrs hok)
    · rw [if_neg hlt] at h
      cases h
      exact ⟨hok, by omega⟩

theorem stagingTotal_init (blocks : List (List Row)) :
    stagingTotal (blocks.map (fun b => (b, ([] : InvIndex)))) =
      blocksPostings blocks := by
  induction blocks with
  | nil => rfl
  | cons b rest ih =>
    rw [List.map_cons, stagingTotal_cons, ih]
    show rowsTotal b + invTotal [] + _ = blocksPostings (b :: rest)
    have h1 : invTotal [] = 0 := rfl
    have h2 : blocksPostings (b :: rest) = rowsTotal b + blocksPostings rest := by
      simp [blocksPostings]
    omega

theorem stagingCount_init (blocks : List (List Row)) (t : String) :
    stagingCount (blocks.map (fun b => (b, ([] : InvIndex)))) t =
      blocksCount blocks t := by
  induction blocks with
  | nil => rfl
  | cons b rest ih =>
    rw [List.map_cons, stagingCount_cons, ih]
    show rowsCount b t + invCount [] t + _ = blocksCount (b :: rest) t
    have h1 : invCount [] t = 0 := rfl
    have h2 : blocksCount (b :: rest) t = rowsCount b t + blocksCount rest t := by
      simp [blocksCount]
    omega

theorem initMerge_ok (np : Nat) (C : String → Nat) (blocks : List (List Row))
    (hsorted : ∀ b ∈ blocks, ((b.map Row.term).Pairwise (· < ·)))
    (htot : blocksPostings blocks = np)
    (hcnt : ∀ t, blocksCount blocks t = C t) :
    MergeOk np C (initMerge blocks) := by
  refine ⟨?_, ?_, ?_⟩
  · intro c hc
    rcases List.mem_map.mp hc with ⟨b, hb, hbc⟩
    rw [← hbc]
    refine ⟨(hsorted b hb).imp (fun hab => ne_of_lt hab), by simp, by simp⟩
  · show 0 + stagingTotal (blocks.map (fun b => (b, ([] : InvIndex)))) = np
    rw [stagingTotal_init]
    omega
  · intro t
    show masterDf [] t +
      stagingCount (blocks.map (fun b => (b, ([] : InvIndex)))) t = C t
    rw [stagingCount_init]
    have h0 : masterDf [] t = 0 := rfl
    have := hcnt t
    omega

theorem mergeIndexBlocks_master {mode : Mode} {mp : Int} {np : Nat}
    {blocks : List (List Row)} {fuel : Nat} {st : MergeState}
    (h : mergeIndexBlocks mode mp np blocks fuel = .ok st)
    {C : String → Nat} (hok : MergeOk np C (initMerge blocks)) :
    ∀ t, masterDf st.master t = C t := by
  by_cases hlen : blocks.length = 0
  · rw [mergeIndexBlocks, if_pos hlen] at h
    exact absurd h (by simp)
  · rw [mergeIndexBlocks_ne mode mp np blocks fuel hlen] at h
    rcases hml : mergeLoop mode mp
        (Int.tdiv (7 * mp) (10 * (blocks.length : Int))) np fuel
        (initMerge blocks) with e | st2
    · rw [hml] at h
      exact absurd h (by simp [Except.bind])
    · rw [hml] at h
      simp only [Except.bind] at h
      rcases mergeLoop_ok fuel (initMerge blocks) st2 hml hok with ⟨hok2, hge⟩
      have hdf : ∀ t, masterDf st2.master t = C t := by
        intro t
        have h1 := hok2.perTerm t
        have h2 := stagingCount_le st2.cursors t
        have h3 := hok2.total
        omega
      split at h <;> cases h
      · exact hdf
      · exact hdf

theorem assocGet_mapKey {α : Type} (f : String → α) :
    ∀ (ks : List String) (t : String),
      assocGet (ks.map (fun k => (k, f k))) t =
        if t ∈ ks then some (f t) else none := by
  intro ks
  induction ks with
  | nil => intro t; simp [assocGet]
  | cons k rest ih =>
    intro t
    by_cases hk : k = t
    · subst hk
      rw [List.map_cons, assocGet_cons_eq, if_pos (List.mem_cons_self _ _)]
    · rw [List.map_cons, assocGet_cons_ne _ _ hk, ih t]
      by_cases hmem : t ∈ rest
      · rw [if_pos hmem, if_pos (List.mem_cons_of_mem _ hmem)]
      · rw [if_neg hmem, if_neg (by
          intro hc
          rcases List.mem_cons.mp hc with hc | hc
          · exact hk hc.symm
          · exact hmem hc)]

theorem masterDf_sortMaster (m : List (String × Nat × Nat)) (t : String) :
    masterDf (sortMaster m) t = masterDf m t := by
  rw [sortMaster, masterDf, assocGet_mapKey (fun k => (assocGet m k).getD (0, 0))]
  by_cases hmem : t ∈ List.insertionSort (· ≤ ·) (m.map Prod.fst)
  · rw [if_pos hmem]
    rfl
  · rw [if_neg hmem]
    have hnk : t ∉ m.map Prod.fst :=
      fun hc => hmem (((List.perm_insertionSort (· ≤ ·)
        (m.map Prod.fst)).mem_iff).mpr hc)
    rw [masterDf, (assocGet_none m t).mpr hnk]

/-- C7: whenever an indexing run completes (for either tokenizer mode, any
threshold, any fuel), the document frequency the persisted master index
records for every term equals the number of distinct surrogate document ids
whose postings contain that term — the documents whose tokenizer output
contains the term (each document contributes at most one posting per term,
because the tokenizer yields a set of terms / a dict keyed by term). -/
theorem C7_document_frequency (mode : Mode) (maxPost : Int)
    (corpus : List Doc) (fuel : Nat) (result : RunResult)
    (hok : indexDataSource mode maxPost corpus fuel = .ok result)
    (htok : TokensOk corpus) :
    ∀ t, masterDf result.masterFile t = countDocsContaining corpus t := by
  rcases buildRun_effects mode maxPost corpus htok with
    ⟨_, hsort, hbp, hcnt, hnp, _⟩
  have hok2 : Except.bind (mergeIndexBlocks mode maxPost
      (buildRun mode maxPost corpus).nrPostings
      (buildRun mode maxPost corpus).blocks fuel)
      (fun m => (.ok { finals := m.finals
                       masterFile := sortMaster m.master
                       nrIndexedDocs := (buildRun mode maxPost corpus).docId
                       nrPostingsStat :=
                         (buildRun mode maxPost corpus).nrPostings
                       vocabularySize := (buildRun mode maxPost corpus).docId
                       nrTempSegments :=
                         ((buildRun mode maxPost corpus).blocks).length } :
        Except RunError RunResult)) = .ok result := hok
  rcases exceptBind_ok_inv _ _ _ hok2 with ⟨m, hm, hres⟩
  have hres2 : ({ finals := m.finals
                  masterFile := sortMaster m.master
                  nrIndexedDocs := (buildRun mode maxPost corpus).docId
                  nrPostingsStat := (buildRun mode maxPost corpus).nrPostings
                  vocabularySize := (buildRun mode maxPost corpus).docId
                  nrTempSegments :=
                    ((buildRun mode maxPost corpus).blocks).length } :
      RunResult) = result := by
    have := hres
    injection this
  rw [← hres2]
  intro t
  show masterDf (sortMaster m.master) t = _
  rw [masterDf_sortMaster]
  exact mergeIndexBlocks_master hm
    (initMerge_ok (buildRun mode maxPost corpus).nrPostings
      (countDocsContaining corpus) (buildRun mode maxPost corpus).blocks
      hsort (by omega) hcnt) t

/-- C7 witness: the completed `corpusAB` run at threshold 100 (single temp
block, merge finishes) has master-index document frequencies matching the
corpus for every term. -/
theorem C7_document_frequency_witness :
    indexDataSource .nonPositional 100 corpusAB 5 =
      .ok { finals := [[⟨"a", [(1, [])]⟩, ⟨"b", [(1, [])]⟩, ⟨"c", [(1, [])]⟩,
                        ⟨"d", [(1, [])]⟩, ⟨"z", [(2, [])]⟩]]
            masterFile := [("a", 1, 1), ("b", 1, 1), ("c", 1, 1),
                           ("d", 1, 1), ("z", 1, 1)]
            nrIndexedDocs := 2
            nrPostingsStat := 5
            vocabularySize := 2
            nrTempSegments := 1 } ∧
    TokensOk corpusAB ∧
    (∀ t, masterDf [("a", 1, 1), ("b", 1, 1), ("c", 1, 1),
                    ("d", 1, 1), ("z", 1, 1)] t =
      countDocsContaining corpusAB t) := by
  have hok : indexDataSource .nonPositional 100 corpusAB 5 =
      .ok { finals := [[⟨"a", [(1, [])]⟩, ⟨"b", [(1, [])]⟩, ⟨"c", [(1, [])]⟩,
                        ⟨"d", [(1, [])]⟩, ⟨"z", [(2, [])]⟩]]
            masterFile := [("a", 1, 1), ("b", 1, 1), ("c", 1, 1),
                           ("d", 1, 1), ("z", 1, 1)]
            nrIndexedDocs := 2
            nrPostingsStat := 5
            vocabularySize := 2
            nrTempSegments := 1 } := by decide
  exact ⟨hok, by show ∀ d ∈ corpusAB, (d.map Prod.fst).Nodup; decide,
    C7_document_frequency .nonPositional 100 corpusAB 5 _ hok
      (by show ∀ d ∈ corpusAB, (d.map Prod.fst).Nodup; decide)⟩

/-! ### Placement invariants of the merge (claim C5) -/

theorem masterBlk_masterUpd_self (m : List (String × Nat × Nat)) (t : String)
    (n blk : Nat) : masterBlk (masterUpd m t n blk) t = blk := by
  rw [masterUpd, masterBlk, assocGet_assocSet_self]
  rfl

theorem masterBlk_masterUpd_ne (m : List (String × Nat × Nat))
    (t t2 : String) (n blk : Nat) (h : t ≠ t2) :
    masterBlk (masterUpd m t n blk) t2 = masterBlk m t2 := by
  rw [masterUpd, masterBlk, masterBlk, assocGet_assocSet_ne _ _ _ _ h]

theorem assocSet_keys_iff {κ α : Type} [DecidableEq κ]
    (m : List (κ × α)) (k : κ) (v : α) (k2 : κ) :
    k2 ∈ (assocSet m k v).map Prod.fst ↔ k2 ∈ m.map Prod.fst ∨ k2 = k := by
  by_cases hk : k ∈ m.map Prod.fst
  · rw [assocSet_keys_mem m k v hk]
    constructor
    · exact Or.inl
    · intro h
      rcases h with h | h
      · exact h
      · rw [h]; exact hk
  · rw [assocSet_fresh m k v hk]
    simp

theorem masterUpd_keys (m : List (String × Nat × Nat)) (t : String)
    (n blk : Nat) (t2 : String) :
    t2 ∈ (masterUpd m t n blk).map Prod.fst ↔
      t2 ∈ m.map Prod.fst ∨ t2 = t := by
  rw [masterUpd]
  exact assocSet_keys_iff _ _ _ _

theorem invMerge_keys (mode : Mode) (inv : InvIndex) (t : String) (c : Chunk)
    (t2 : String) :
    t2 ∈ (invMerge mode inv t c).map Prod.fst ↔
      t2 ∈ inv.map Prod.fst ∨ t2 = t := by
  rw [invMerge.eq_def]
  exact assocSet_keys_iff _ _ _ _

theorem invMerge_keys_nodup (mode : Mode) (inv : InvIndex) (t : String)
    (c : Chunk) (h : (inv.map Prod.fst).Nodup) :
    ((invMerge mode inv t c).map Prod.fst).Nodup :=
  assocSet_keys_nodup _ _ _ h

theorem sortHead_le (l : List String) (b : String) (tl : List String)
    (h : List.insertionSort (· ≤ ·) l = b :: tl) : ∀ t ∈ l, b ≤ t := by
  intro t ht
  have hmem : t ∈ b :: tl := by
    rw [← h]
    exact ((List.perm_insertionSort (· ≤ ·) l).mem_iff).mpr ht
  have hs : (b :: tl).Pairwise (· ≤ ·) := by
    rw [← h]
    exact List.sorted_insertionSort _ _
  rcases List.mem_cons.mp hmem with hh | hh
  · rw [hh]
  · exact (List.pairwise_cons.mp hs).1 t hh

theorem readFacts_bound (b : String) :
    ∀ (cs : List (List Row × InvIndex)) (ts : List String),
      ReadFacts cs ts → (∀ t ∈ ts, b ≤ t) →
      ∀ c ∈ cs, ∀ r ∈ c.1, b < r.term := by
  intro cs
  induction cs with
  | nil => intro ts _ _ c hc; simp at hc
  | cons c0 rest ih =>
    intro ts h hb c hc
    cases ts with
    | nil => exact (show False from h).elim
    | cons t0 ts0 =>
      replace h : (∀ r ∈ c0.1, t0 < r.term) ∧ ReadFacts rest ts0 := h
      rcases List.mem_cons.mp hc with hc | hc
      · intro r hr
        rw [hc] at hr
        exact lt_of_le_of_lt (hb t0 (List.mem_cons_self _ _)) (h.1 r hr)
      · exact ih ts0 h.2 (fun t ht => hb t (List.mem_cons_of_mem _ ht)) c hc

theorem stagedIn_cons (c : List Row × InvIndex)
    (cs : List (List Row × InvIndex)) (t : String) :
    stagedIn (c :: cs) t ↔ t ∈ c.2.map Prod.fst ∨ stagedIn cs t := by
  simp [stagedIn]

theorem stagedIn_inCursors (cs : List (List Row × InvIndex)) (t : String)
    (h : stagedIn cs t) : inCursors cs t := by
  rcases h with ⟨c, hc, hm⟩
  exact ⟨c, hc, Or.inl hm⟩

theorem blocksContaining_append (b : List Row) (t : String) :
    ∀ (fs : List (List Row)) (k : Nat),
      blocksContaining (fs ++ [b]) t k =
        blocksContaining fs t k ++
          (if t ∈ b.map Row.term then [k + fs.length] else []) := by
  intro fs
  induction fs with
  | nil =>
    intro k
    simp [blocksContaining]
  | cons f rest ih =>
    intro k
    rw [List.cons_append, blocksContaining, blocksContaining, ih (k + 1),
      List.append_assoc, List.length_cons]
    have harith : k + 1 + rest.length = k + (rest.length + 1) := by omega
    rw [harith]

theorem dumpIndex_mem (inv : InvIndex) (t : String) :
    t ∈ (dumpIndex inv).map Row.term ↔ t ∈ inv.map Prod.fst := by
  rw [dumpIndex_terms]
  exact (List.perm_insertionSort (· ≤ ·) (inv.map Prod.fst)).mem_iff

theorem sortMaster_keys (m : List (String × Nat × Nat)) (t : String) :
    t ∈ (sortMaster m).map Prod.fst ↔ t ∈ m.map Prod.fst := by
  have h1 : (sortMaster m).map Prod.fst =
      List.insertionSort (· ≤ ·) (m.map Prod.fst) := by
    simp only [sortMaster, List.map_map]
    rw [show (Prod.fst ∘ fun t =>
      ((t, (assocGet m t).getD (0, 0)) : String × Nat × Nat)) = fun t => t
      from rfl]
    exact List.map_id _
  rw [h1]
  exact (List.perm_insertionSort (· ≤ ·) (m.map Prod.fst)).mem_iff

theorem masterBlk_sortMaster (m : List (String × Nat × Nat)) (t : String) :
    masterBlk (sortMaster m) t = masterBlk m t := by
  rw [sortMaster, masterBlk,
    assocGet_mapKey (fun k => (assocGet m k).getD (0, 0))]
  by_cases hmem : t ∈ List.insertionSort (· ≤ ·) (m.map Prod.fst)
  · rw [if_pos hmem]
    rfl
  · rw [if_neg hmem]
    have hnk : t ∉ m.map Prod.fst :=
      fun hc => hmem (((List.perm_insertionSort (· ≤ ·)
        (m.map Prod.fst)).mem_iff).mpr hc)
    rw [masterBlk, (assocGet_none m t).mpr hnk]

theorem readBlock_nil (budget : Int) (g : InvIndex) (tv : Option String)
    (n : Nat) : readBlock budget [] g tv n = ([], g, tv) := by
  rw [readBlock.eq_def]
  split <;> rfl

theorem readBlock_place (budget : Int) :
    ∀ (r : List Row) (g : InvIndex) (tv : Option String) (n : Nat),
      CursorSorted (r, g) →
      CursorSorted ((readBlock budget r g tv n).1,
        (readBlock budget r g tv n).2.1) ∧
      ((readBlock budget r g tv n).1).Sublist r ∧
      (∀ t, t ∈ (readBlock budget r g tv n).2.1.map Prod.fst →
        t ∈ g.map Prod.fst ∨ t ∈ r.map Row.term) := by
  intro r
  induction r with
  | nil =>
    intro g tv n hok
    rw [readBlock_nil]
    exact ⟨hok, List.Sublist.refl _, fun t ht => Or.inl ht⟩
  | cons row rest ih =>
    intro g tv n hok
    by_cases hb : (n : Int) < budget
    · rw [readBlock_cons budget row rest g tv n hb]
      rcases hok with ⟨hr, hg, hbelow⟩
      simp only [List.map_cons, List.pairwise_cons] at hr
      have hfresh : row.term ∉ g.map Prod.fst := by
        intro hmem
        exact absurd (hbelow row.term hmem row (List.mem_cons_self _ _))
          (lt_irrefl _)
      rw [assocSet_fresh g row.term row.chunk hfresh]
      have hok2 : CursorSorted (rest, g ++ [(row.term, row.chunk)]) := by
        refine ⟨hr.2, ?_, ?_⟩
        · simp only [List.map_append, List.map_cons, List.map_nil]
          rw [List.nodup_append]
          exact ⟨hg, List.nodup_singleton _, by
            simpa using fun hh => hfresh hh⟩
        · intro s hs r2 hr2
          simp only [List.map_append, List.map_cons, List.map_nil,
            List.mem_append, List.mem_singleton] at hs
          rcases hs with hs | hs
          · exact hbelow s hs r2 (List.mem_cons_of_mem _ hr2)
          · rw [hs]
            exact hr.1 r2.term (List.mem_map_of_mem Row.term hr2)
      rcases ih (g ++ [(row.term, row.chunk)]) (some row.term)
        (n + row.chunk.length) hok2 with ⟨hok3, hsub3, hkeys3⟩
      refine ⟨hok3, hsub3.cons _, ?_⟩
      intro t ht
      rcases hkeys3 t ht with h2 | h2
      · simp only [List.map_append, List.map_cons, List.map_nil,
          List.mem_append, List.mem_singleton] at h2
        rcases h2 with h2 | h2
        · exact Or.inl h2
        · exact Or.inr (by rw [h2]; simp)
      · exact Or.inr (List.mem_cons_of_mem _ h2)
    · rw [readBlock.eq_def, if_neg hb]
      exact ⟨hok, List.Sublist.refl _, fun t ht => Or.inl ht⟩

theorem readBlock_lastRead (budget : Int) :
    ∀ (r : List Row) (g : InvIndex) (n : Nat) (t0 : String),
      (∀ row ∈ r, t0 < row.term) → ((r.map Row.term).Pairwise (· < ·)) →
      ∃ t, (readBlock budget r g (some t0) n).2.2 = some t ∧
        ∀ row ∈ (readBlock budget r g (some t0) n).1, t < row.term := by
  intro r
  induction r with
  | nil =>
    intro g n t0 _ _
    rw [readBlock_nil]
    exact ⟨t0, rfl, by simp⟩
  | cons row rest ih =>
    intro g n t0 hlt hs
    by_cases hb : (n : Int) < budget
    · rw [readBlock_cons budget row rest g (some t0) n hb]
      simp only [List.map_cons, List.pairwise_cons] at hs
      exact ih (assocSet g row.term row.chunk) (n + row.chunk.length)
        row.term (fun r2 hr2 => hs.1 r2.term (List.mem_map_of_mem _ hr2))
        hs.2
    · rw [readBlock.eq_def, if_neg hb]
      exact ⟨t0, rfl, hlt⟩

theorem readBlock_frontier (budget : Int) (hb : (0 : Int) < budget) :
    ∀ (r : List Row) (g : InvIndex) (tv : Option String),
      ((r.map Row.term).Pairwise (· < ·)) →
      (r = [] ∧ (readBlock budget r g tv 0).1 = [] ∧
        (readBlock budget r g tv 0).2.2 = tv) ∨
      (∃ t, (readBlock budget r g tv 0).2.2 = some t ∧
        ∀ row ∈ (readBlock budget r g tv 0).1, t < row.term) := by
  intro r g tv hs
  cases r with
  | nil =>
    left
    rw [readBlock_nil]
    exact ⟨rfl, rfl, rfl⟩
  | cons row rest =>
    right
    rw [readBlock_cons budget row rest g tv 0 (by simpa using hb)]
    simp only [List.map_cons, List.pairwise_cons] at hs
    exact readBlock_lastRead budget rest (assocSet g row.term row.chunk)
      (0 + row.chunk.length) row.term
      (fun r2 hr2 => hs.1 r2.term (List.mem_map_of_mem _ hr2)) hs.2

theorem readPhase_place (budget : Int) (hb : (0 : Int) < budget) :
    ∀ (cs : List (List Row × InvIndex)) (tv : Option String)
      (res : List (List Row × InvIndex) × List String × Option String),
      readPhase budget cs tv = .ok res →
      (∀ c ∈ cs, CursorSorted c) →
      (∀ c ∈ res.1, CursorSorted c) ∧
      (∀ t, inCursors res.1 t → inCursors cs t) ∧
      ReadFacts res.1 res.2.1 := by
  intro cs
  induction cs with
  | nil =>
    intro tv res h hok
    rw [readPhase] at h
    cases h
    exact ⟨by simp, fun t ht => ht, trivial⟩
  | cons c rest ih =>
    intro tv res h hok
    rcases c with ⟨r, g⟩
    simp only [readPhase] at h
    rcases hreq : readBlock budget r g tv 0 with ⟨r2, g2, tv2⟩
    rw [hreq] at h
    have hplace := readBlock_place budget r g tv 0
      (hok (r, g) (List.mem_cons_self _ _))
    have hfront := readBlock_frontier budget hb r g tv
      (hok (r, g) (List.mem_cons_self _ _)).1
    rw [hreq] at hplace hfront
    dsimp only at hplace hfront
    cases tv2 with
    | none => exact absurd h (by simp)
    | some t0 =>
      rcases hrp : readPhase budget rest (some t0) with e2 | y
      · rw [hrp] at h
        exact absurd h (by simp [Except.bind])
      · rw [hrp] at h
        simp only [Except.bind] at h
        cases h
        rcases ih (some t0) y hrp
          (fun c hc => hok c (List.mem_cons_of_mem _ hc)) with
          ⟨hok2, hsh2, hfacts2⟩
        refine ⟨?_, ?_, ?_⟩
        · intro c hc
          rcases List.mem_cons.mp hc with hc | hc
          · rw [hc]; exact hplace.1
          · exact hok2 c hc
        · intro t ht
          rcases ht with ⟨c, hc, hm⟩
          rcases List.mem_cons.mp hc with hc | hc
          · subst hc
            rcases hm with hm | hm
            · rcases hplace.2.2 t hm with h2 | h2
              · exact ⟨(r, g), List.mem_cons_self _ _, Or.inl h2⟩
              · exact ⟨(r, g), List.mem_cons_self _ _, Or.inr h2⟩
            · have ht2 : t ∈ r.map Row.term :=
                (hplace.2.1.map Row.term).subset hm
              exact ⟨(r, g), List.mem_cons_self _ _, Or.inr ht2⟩
          · rcases hsh2 t ⟨c, hc, hm⟩ with ⟨c3, hc3, hm3⟩
            exact ⟨c3, List.mem_cons_of_mem _ hc3, hm3⟩
        · show (∀ row ∈ r2, t0 < row.term) ∧ ReadFacts y.1 y.2.1
          refine ⟨?_, hfacts2⟩
          rcases hfront with ⟨_, hr2nil, _⟩ | ⟨t3, ht3, hlt3⟩
          · intro row hrow
            rw [hr2nil] at hrow
            exact absurd hrow (List.not_mem_nil _)
          · have ht03 : t0 = t3 := by
              injection ht3 with hh
            intro row hrow
            rw [ht03]
            exact hlt3 row hrow

theorem mergeStage_place (mode : Mode) (boundary : String) (nrFinal : Nat) :
    ∀ (g inv : InvIndex) (master : List (String × Nat × Nat))
      (merged bpc : Nat),
      (∀ t ∈ (mergeStage mode boundary nrFinal g inv master merged
          bpc).1.map Prod.fst, t ∈ g.map Prod.fst ∧ ¬ t ≤ boundary) ∧
      (∀ t ∈ g.map Prod.fst, ¬ t ≤ boundary →
        t ∈ (mergeStage mode boundary nrFinal g inv master merged
          bpc).1.map Prod.fst) ∧
      (∀ t, t ∈ (mergeStage mode boundary nrFinal g inv master merged
          bpc).2.2.1.map Prod.fst ↔
        t ∈ master.map Prod.fst ∨ (t ∈ g.map Prod.fst ∧ t ≤ boundary)) ∧
      (∀ t, t ∈ g.map Prod.fst → t ≤ boundary →
        masterBlk (mergeStage mode boundary nrFinal g inv master merged
          bpc).2.2.1 t = nrFinal) ∧
      (∀ t, ¬ (t ∈ g.map Prod.fst ∧ t ≤ boundary) →
        masterBlk (mergeStage mode boundary nrFinal g inv master merged
          bpc).2.2.1 t = masterBlk master t) ∧
      (∀ t, t ∈ (mergeStage mode boundary nrFinal g inv master merged
          bpc).2.1.map Prod.fst ↔
        t ∈ inv.map Prod.fst ∨ (t ∈ g.map Prod.fst ∧ t ≤ boundary)) ∧
      ((inv.map Prod.fst).Nodup →
        ((mergeStage mode boundary nrFinal g inv master merged
          bpc).2.1.map Prod.fst).Nodup) := by
  intro g
  induction g with
  | nil =>
    intro inv master merged bpc
    rw [mergeStage]
    refine ⟨by simp, by simp, ?_, by simp, fun t _ => rfl, ?_, fun h => h⟩
    · intro t; simp
    · intro t; simp
  | cons e rest ih =>
    rcases e with ⟨t0, c⟩
    intro inv master merged bpc
    rw [mergeStage]
    by_cases hle : t0 ≤ boundary
    · rw [if_pos hle]
      rcases ih (invMerge mode inv t0 c)
        (masterUpd master t0 c.length nrFinal) (merged + c.length)
        (bpc + c.length) with ⟨ih1, ih2, ih3, ih4, ih5, ih6, ih7⟩
      refine ⟨?_, ?_, ?_, ?_, ?_, ?_, ?_⟩
      · intro t ht
        rcases ih1 t ht with ⟨hm, hnle⟩
        simp only [List.map_cons, List.mem_cons]
        exact ⟨Or.inr hm, hnle⟩
      · intro t ht hnle
        simp only [List.map_cons, List.mem_cons] at ht
        rcases ht with ht | ht
        · exact absurd (by rw [ht]; exact hle) hnle
        · exact ih2 t ht hnle
      · intro t
        rw [ih3 t, masterUpd_keys]
        simp only [List.map_cons, List.mem_cons]
        constructor
        · rintro ((hm | he) | ⟨hr, hb2⟩)
          · exact Or.inl hm
          · exact Or.inr ⟨Or.inl he, by rw [he]; exact hle⟩
          · exact Or.inr ⟨Or.inr hr, hb2⟩
        · rintro (hm | ⟨he | hr, hb2⟩)
          · exact Or.inl (Or.inl hm)
          · exact Or.inl (Or.inr he)
          · exact Or.inr ⟨hr, hb2⟩
      · intro t ht hb2
        simp only [List.map_cons, List.mem_cons] at ht
        by_cases hrest : t ∈ rest.map Prod.fst ∧ t ≤ boundary
        · exact ih4 t hrest.1 hrest.2
        · rw [ih5 t hrest]
          rcases ht with ht | ht
          · rw [ht]
            exact masterBlk_masterUpd_self _ _ _ _
          · exact absurd ⟨ht, hb2⟩ hrest
      · intro t hnot
        have hnt0 : t0 ≠ t := by
          intro he
          exact hnot ⟨by simp [he.symm], by rw [he.symm]; exact hle⟩
        have hnrest : ¬ (t ∈ rest.map Prod.fst ∧ t ≤ boundary) := by
          rintro ⟨hr, hb2⟩
          exact hnot ⟨by simp [hr], hb2⟩
        rw [ih5 t hnrest, masterBlk_masterUpd_ne _ _ _ _ _ hnt0]
      · intro t
        rw [ih6 t, invMerge_keys]
        simp only [List.map_cons, List.mem_cons]
        constructor
        · rintro ((hm | he) | ⟨hr, hb2⟩)
          · exact Or.inl hm
          · exact Or.inr ⟨Or.inl he, by rw [he]; exact hle⟩
          · exact Or.inr ⟨Or.inr hr, hb2⟩
        · rintro (hm | ⟨he | hr, hb2⟩)
          · exact Or.inl (Or.inl hm)
          · exact Or.inl (Or.inr he)
          · exact Or.inr ⟨hr, hb2⟩
      · intro hnod
        exact ih7 (invMerge_keys_nodup mode inv t0 c hnod)
    · rw [if_neg hle]
      dsimp only
      rcases ih inv master merged bpc with ⟨ih1, ih2, ih3, ih4, ih5, ih6, ih7⟩
      refine ⟨?_, ?_, ?_, ?_, ?_, ?_, ih7⟩
      · intro t ht
        simp only [List.map_cons, List.mem_cons] at ht ⊢
        rcases ht with ht | ht
        · exact ⟨Or.inl ht, by rw [ht]; exact hle⟩
        · rcases ih1 t ht with ⟨hm, hnle⟩
          exact ⟨Or.inr hm, hnle⟩
      · intro t ht hnle
        simp only [List.map_cons, List.mem_cons] at ht ⊢
        rcases ht with ht | ht
        · exact Or.inl ht
        · exact Or.inr (ih2 t ht hnle)
      · intro t
        rw [ih3 t]
        simp only [List.map_cons, List.mem_cons]
        constructor
        · rintro (hm | ⟨hr, hb2⟩)
          · exact Or.inl hm
          · exact Or.inr ⟨Or.inr hr, hb2⟩
        · rintro (hm | ⟨he | hr, hb2⟩)
          · exact Or.inl hm
          · exact absurd (by rw [← he]; exact hb2) hle
          · exact Or.inr ⟨hr, hb2⟩
      · intro t ht hb2
        simp only [List.map_cons, List.mem_cons] at ht
        rcases ht with ht | ht
        · exact absurd (by rw [ht] at hb2; exact hb2) hle
        · exact ih4 t ht hb2
      · intro t hnot
        refine ih5 t ?_
        rintro ⟨hr, hb2⟩
        exact hnot ⟨by simp [hr], hb2⟩
      · intro t
        rw [ih6 t]
        simp only [List.map_cons, List.mem_cons]
        constructor
        · rintro (hm | ⟨hr, hb2⟩)
          · exact Or.inl hm
          · exact Or.inr ⟨Or.inr hr, hb2⟩
        · rintro (hm | ⟨he | hr, hb2⟩)
          · exact Or.inl hm
          · exact absurd (by rw [← he]; exact hb2) hle
          · exact Or.inr ⟨hr, hb2⟩

theorem mergeAll_place (mode : Mode) (boundary : String) (nrFinal : Nat) :
    ∀ (cs : List (List Row × InvIndex)) (inv : InvIndex)
      (master : List (String × Nat × Nat)) (merged bpc : Nat),
      (∀ c2 ∈ (mergeAll mode boundary nrFinal cs inv master merged bpc).1,
        ∃ c ∈ cs, c2.1 = c.1 ∧ c2.2.Sublist c.2 ∧
          (∀ t ∈ c2.2.map Prod.fst, ¬ t ≤ boundary)) ∧
      (∀ t, t ∈ (mergeAll mode boundary nrFinal cs inv master merged
          bpc).2.2.1.map Prod.fst ↔
        t ∈ master.map Prod.fst ∨ (stagedIn cs t ∧ t ≤ boundary)) ∧
      (∀ t, stagedIn cs t → t ≤ boundary →
        masterBlk (mergeAll mode boundary nrFinal cs inv master merged
          bpc).2.2.1 t = nrFinal) ∧
      (∀ t, ¬ (stagedIn cs t ∧ t ≤ boundary) →
        masterBlk (mergeAll mode boundary nrFinal cs inv master merged
          bpc).2.2.1 t = masterBlk master t) ∧
      (∀ t, t ∈ (mergeAll mode boundary nrFinal cs inv master merged
          bpc).2.1.map Prod.fst ↔
        t ∈ inv.map Prod.fst ∨ (stagedIn cs t ∧ t ≤ boundary)) ∧
      ((inv.map Prod.fst).Nodup →
        ((mergeAll mode boundary nrFinal cs inv master merged
          bpc).2.1.map Prod.fst).Nodup) := by
  intro cs
  induction cs with
  | nil =>
    intro inv master merged bpc
    rw [mergeAll]
    refine ⟨by simp, ?_, ?_, fun t _ => rfl, ?_, fun h => h⟩
    · intro t
      simp [stagedIn]
    · intro t ht
      rcases ht with ⟨c, hc, _⟩
      simp at hc
    · intro t
      simp [stagedIn]
  | cons c0 rest ih =>
    rcases c0 with ⟨r, g⟩
    intro inv master merged bpc
    rw [mergeAll]
    dsimp only
    rcases mergeStage_place mode boundary nrFinal g inv master merged bpc
      with ⟨ms1, ms2, ms3, ms4, ms5, ms6, ms7⟩
    have hsub := (mergeStage_effects mode boundary nrFinal g inv master
      merged bpc).1
    rcases ih (mergeStage mode boundary nrFinal g inv master merged bpc).2.1
      (mergeStage mode boundary nrFinal g inv master merged bpc).2.2.1
      (mergeStage mode boundary nrFinal g inv master merged bpc).2.2.2.1
      (mergeStage mode boundary nrFinal g inv master merged bpc).2.2.2.2
      with ⟨ia1, ia2, ia3, ia4, ia5, ia6⟩
    refine ⟨?_, ?_, ?_, ?_, ?_, ?_⟩
    · intro c2 hc2
      rcases List.mem_cons.mp hc2 with hc2 | hc2
      · refine ⟨(r, g), List.mem_cons_self _ _, ?_, ?_, ?_⟩
        · rw [hc2]
        · rw [hc2]
          exact hsub
        · rw [hc2]
          intro t ht
          exact (ms1 t ht).2
      · rcases ia1 c2 hc2 with ⟨c, hc, h1, h2, h3⟩
        exact ⟨c, List.mem_cons_of_mem _ hc, h1, h2, h3⟩
    · intro t
      rw [ia2 t, ms3 t, stagedIn_cons]
      constructor
      · rintro ((hm | ⟨hg, hb2⟩) | ⟨hs, hb2⟩)
        · exact Or.inl hm
        · exact Or.inr ⟨Or.inl hg, hb2⟩
        · exact Or.inr ⟨Or.inr hs, hb2⟩
      · rintro (hm | ⟨hg | hs, hb2⟩)
        · exact Or.inl (Or.inl hm)
        · exact Or.inl (Or.inr ⟨hg, hb2⟩)
        · exact Or.inr ⟨hs, hb2⟩
    · intro t hst hb2
      rcases (stagedIn_cons _ _ _).mp hst with hg | hs
      · by_cases hrest : stagedIn rest t
        · exact ia3 t hrest hb2
        · rw [ia4 t (fun hh => hrest hh.1)]
          exact ms4 t hg hb2
      · exact ia3 t hs hb2
    · intro t hnot
      have hnrest : ¬ (stagedIn rest t ∧ t ≤ boundary) := by
        rintro ⟨hs, hb2⟩
        exact hnot ⟨(stagedIn_cons _ _ _).mpr (Or.inr hs), hb2⟩
      have hng : ¬ (t ∈ g.map Prod.fst ∧ t ≤ boundary) := by
        rintro ⟨hg, hb2⟩
        exact hnot ⟨(stagedIn_cons _ _ _).mpr (Or.inl hg), hb2⟩
      rw [ia4 t hnrest, ms5 t hng]
    · intro t
      rw [ia5 t, ms6 t, stagedIn_cons]
      constructor
      · rintro ((hm | ⟨hg, hb2⟩) | ⟨hs, hb2⟩)
        · exact Or.inl hm
        · exact Or.inr ⟨Or.inl hg, hb2⟩
        · exact Or.inr ⟨Or.inr hs, hb2⟩
      · rintro (hm | ⟨hg | hs, hb2⟩)
        · exact Or.inl (Or.inl hm)
        · exact Or.inl (Or.inr ⟨hg, hb2⟩)
        · exact Or.inr ⟨hs, hb2⟩
    · intro hnod
      exact ia6 (ms7 hnod)

theorem roundStep_place {mode : Mode} {mp budget : Int} {st st2 : MergeState}
    (hb : (0 : Int) < budget) (h : roundStep mode mp budget st = .ok st2)
    (hok : PlaceOk st) : PlaceOk st2 := by
  rw [roundStep] at h
  rcases exceptBind_ok_inv _ _ _ h with ⟨rp, hrp, h2⟩
  rcases readPhase_place budget hb st.cursors st.termVar rp hrp hok.cursors
    with ⟨hc1, hshrink, hfacts⟩
  rw [roundTail] at h2
  rcases hsort : List.insertionSort (· ≤ ·) rp.2.1 with _ | ⟨b, tl⟩
  · rw [hsort] at h2
    exact absurd h2 (by simp)
  · rw [hsort] at h2
    dsimp only at h2
    have hble : ∀ t' ∈ rp.2.1, b ≤ t' := sortHead_le rp.2.1 b tl hsort
    have hrows : ∀ c ∈ rp.1, ∀ row ∈ c.1, b < row.term :=
      readFacts_bound b rp.1 rp.2.1 hfacts hble
    rcases mergeAll_place mode b st.nrFinal rp.1 st.inv st.master st.nrMerged
      st.bpc with ⟨ha1, ha2, ha3, ha4, ha5, ha6⟩
    rcases hX : mergeAll mode b st.nrFinal rp.1 st.inv st.master st.nrMerged
      st.bpc with ⟨cs2, inv2, master2, merged2, bpc2⟩
    rw [hX] at h2 ha1 ha2 ha3 ha4 ha5 ha6
    dsimp only at h2 ha1 ha2 ha3 ha4 ha5 ha6
    have hcur2 : ∀ c2 ∈ cs2, CursorSorted c2 := by
      intro c2 hc2
      rcases ha1 c2 hc2 with ⟨c, hc, heq, hsubl, hnle⟩
      rcases hc1 c hc with ⟨hs1, hs2, hs3⟩
      refine ⟨by rw [heq]; exact hs1, hs2.sublist (hsubl.map Prod.fst), ?_⟩
      intro s hs row hrow
      exact hs3 s ((hsubl.map Prod.fst).subset hs) row
        (by rw [← heq]; exact hrow)
    have hdone2 : ∀ t ∈ master2.map Prod.fst, ¬ inCursors cs2 t := by
      intro t hm hinc
      rcases hinc with ⟨c2, hc2, hmem⟩
      rcases ha1 c2 hc2 with ⟨c, hc, heq, hsubl, hnle⟩
      rcases (ha2 t).mp hm with hold | ⟨hst, hb2⟩
      · have hin : inCursors st.cursors t := by
          apply hshrink
          rcases hmem with hmem | hmem
          · exact ⟨c, hc, Or.inl ((hsubl.map Prod.fst).subset hmem)⟩
          · exact ⟨c, hc, Or.inr (by rw [← heq]; exact hmem)⟩
        exact hok.done t hold hin
      · rcases hmem with hmem | hmem
        · exact hnle t hmem hb2
        · rcases List.mem_map.mp hmem with ⟨row, hrow, hterm⟩
          have hlt : b < row.term :=
            hrows c hc row (by rw [← heq]; exact hrow)
          rw [hterm] at hlt
          exact absurd hb2 (not_le.mpr hlt)
    have hplaced2 : ∀ t ∈ master2.map Prod.fst,
        (blocksContaining st.finals t 1 = [] ∧ t ∈ inv2.map Prod.fst ∧
          masterBlk master2 t = st.nrFinal) ∨
        (blocksContaining st.finals t 1 = [masterBlk master2 t] ∧
          t ∉ inv2.map Prod.fst ∧ masterBlk master2 t < st.nrFinal) := by
      intro t hm
      by_cases hold : t ∈ st.master.map Prod.fst
      · have hnst : ¬ (stagedIn rp.1 t ∧ t ≤ b) := by
          rintro ⟨hst, _⟩
          exact hok.done t hold (hshrink t (stagedIn_inCursors rp.1 t hst))
        have hblk : masterBlk master2 t = masterBlk st.master t := ha4 t hnst
        have hinv : t ∈ inv2.map Prod.fst ↔ t ∈ st.inv.map Prod.fst := by
          rw [ha5 t]
          constructor
          · rintro (hh | hh)
            · exact hh
            · exact absurd hh hnst
          · exact Or.inl
        rcases hok.placed t hold with ⟨hbc, hi, hfin⟩ | ⟨hbc, hi, hfin⟩
        · exact Or.inl ⟨hbc, hinv.mpr hi, by rw [hblk]; exact hfin⟩
        · exact Or.inr ⟨by rw [hblk]; exact hbc,
            fun hh => hi (hinv.mp hh), by rw [hblk]; exact hfin⟩
      · have hnew : stagedIn rp.1 t ∧ t ≤ b := by
          rcases (ha2 t).mp hm with hh | hh
          · exact absurd hh hold
          · exact hh
        have hblk : masterBlk master2 t = st.nrFinal := ha3 t hnew.1 hnew.2
        have hbc : blocksContaining st.finals t 1 = [] := by
          by_contra hne
          exact hold (hok.finalsSub t hne)
        exact Or.inl ⟨hbc, (ha5 t).mpr (Or.inr hnew), hblk⟩
    have hinvsub2 : ∀ t ∈ inv2.map Prod.fst, t ∈ master2.map Prod.fst := by
      intro t ht
      rcases (ha5 t).mp ht with hh | hh
      · exact (ha2 t).mpr (Or.inl (hok.invSub t hh))
      · exact (ha2 t).mpr (Or.inr hh)
    have hfsub2 : ∀ t, blocksContaining st.finals t 1 ≠ [] →
        t ∈ master2.map Prod.fst := by
      intro t ht
      exact (ha2 t).mpr (Or.inl (hok.finalsSub t ht))
    have hinod2 : (inv2.map Prod.fst).Nodup := ha6 hok.invNodup
    split at h2 <;> cases h2
    · -- the round flushed a final block
      refine ⟨?_, ?_, ?_, ?_, ?_, ?_, ?_⟩
      · show (st.finals ++ [dumpIndex inv2]).length + 1 = st.nrFinal + 1
        have hfl := hok.finLen
        simp only [List.length_append, List.length_cons, List.length_nil]
        omega
      · show (([] : InvIndex).map Prod.fst).Nodup
        simp
      · exact hcur2
      · intro t hm
        rcases hplaced2 t hm with ⟨hbc, hi, hfin⟩ | ⟨hbc, hi, hfin⟩
        · right
          show blocksContaining (st.finals ++ [dumpIndex inv2]) t 1 =
              [masterBlk master2 t] ∧
            t ∉ (([] : InvIndex).map Prod.fst) ∧
            masterBlk master2 t < st.nrFinal + 1
          refine ⟨?_, by simp, by omega⟩
          rw [blocksContaining_append,
            if_pos ((dumpIndex_mem inv2 t).mpr hi), hbc, List.nil_append]
          have hfl := hok.finLen
          have harr : 1 + st.finals.length = masterBlk master2 t := by omega
          rw [harr]
        · right
          show blocksContaining (st.finals ++ [dumpIndex inv2]) t 1 =
              [masterBlk master2 t] ∧
            t ∉ (([] : InvIndex).map Prod.fst) ∧
            masterBlk master2 t < st.nrFinal + 1
          refine ⟨?_, by simp, by omega⟩
          rw [blocksContaining_append,
            if_neg (fun hh => hi ((dumpIndex_mem inv2 t).mp hh)), hbc,
            List.append_nil]
      · exact hdone2
      · intro t ht
        simp at ht
      · intro t ht
        show t ∈ master2.map Prod.fst
        rw [blocksContaining_append] at ht
        by_cases hbc : blocksContaining st.finals t 1 = []
        · rw [hbc, List.nil_append] at ht
          by_cases htd : t ∈ (dumpIndex inv2).map Row.term
          · exact hinvsub2 t ((dumpIndex_mem inv2 t).mp htd)
          · rw [if_neg htd] at ht
            exact absurd rfl ht
        · exact hfsub2 t hbc
    · -- no flush this round
      exact ⟨hok.finLen, hinod2, hcur2, hplaced2, hdone2, hinvsub2, hfsub2⟩

theorem mergeLoop_place {mode : Mode} {mp budget : Int} {np : Nat}
    (hb : (0 : Int) < budget) :
    ∀ (fuel : Nat) (st st2 : MergeState),
      mergeLoop mode mp budget np fuel st = .ok st2 → PlaceOk st →
      PlaceOk st2 := by
  intro fuel
  induction fuel with
  | zero =>
    intro st st2 h hok
    rw [mergeLoop] at h
    by_cases hlt : st.nrMerged < np
    · rw [if_pos hlt] at h
      exact absurd h (by simp)
    · rw [if_neg hlt] at h
      cases h
      exact hok
  | succ f ih =>
    intro st st2 h hok
    rw [mergeLoop] at h
    by_cases hlt : st.nrMerged < np
    · rw [if_pos hlt] at h
      rcases hrs : roundStep mode mp budget st with e | mid
      · rw [hrs] at h
        exact absurd h (by simp [Except.bind])
      · rw [hrs] at h
        simp only [Except.bind] at h
        exact ih mid st2 h (roundStep_place hb hrs hok)
    · rw [if_neg hlt] at h
      cases h
      exact hok

theorem initMerge_place (blocks : List (List Row))
    (hsorted : ∀ b ∈ blocks, ((b.map Row.term).Pairwise (· < ·))) :
    PlaceOk (initMerge blocks) := by
  refine ⟨rfl, by simp [initMerge], ?_, ?_, ?_, ?_, ?_⟩
  · intro c hc
    rcases List.mem_map.mp hc with ⟨b, hb, hbc⟩
    rw [← hbc]
    exact ⟨hsorted b hb, by simp, by simp⟩
  · intro t ht
    simp [initMerge] at ht
  · intro t ht
    simp [initMerge] at ht
  · intro t ht
    simp [initMerge] at ht
  · intro t ht
    exact absurd rfl ht

theorem mergeIndexBlocks_place {mode : Mode} {mp : Int} {np : Nat}
    {blocks : List (List Row)} {fuel : Nat} {st : MergeState}
    (h : mergeIndexBlocks mode mp np blocks fuel = .ok st)
    (hsorted : ∀ b ∈ blocks, ((b.map Row.term).Pairwise (· < ·))) :
    ∀ t ∈ st.master.map Prod.fst,
      blocksContaining st.finals t 1 = [masterBlk st.master t] := by
  by_cases hlen : blocks.length = 0
  · rw [mergeIndexBlocks, if_pos hlen] at h
    exact absurd h (by simp)
  · rw [mergeIndexBlocks_ne mode mp np blocks fuel hlen] at h
    rcases hml : mergeLoop mode mp
        (Int.tdiv (7 * mp) (10 * (blocks.length : Int))) np fuel
        (initMerge blocks) with e | st2
    · rw [hml] at h
      exact absurd h (by simp [Except.bind])
    · rw [hml] at h
      simp only [Except.bind] at h
      have hplace : PlaceOk st2 := by
        by_cases hnp : 0 < np
        · by_cases hbud : (0 : Int) <
              Int.tdiv (7 * mp) (10 * (blocks.length : Int))
          · exact mergeLoop_place hbud fuel (initMerge blocks) st2 hml
              (initMerge_place blocks hsorted)
          · exfalso
            have hble : Int.tdiv (7 * mp)
                (10 * (blocks.length : Int)) ≤ 0 := by omega
            have hcur : ∃ r g rest,
                (initMerge blocks).cursors = (r, g) :: rest := by
              rcases blocks with _ | ⟨b, bs⟩
              · exact absurd rfl hlen
              · exact ⟨b, [], bs.map (fun x => (x, [])), rfl⟩
            have hrs := roundStep_unbound mode mp _ (initMerge blocks) hble
              hcur rfl
            cases fuel with
            | zero =>
              rw [mergeLoop,
                if_pos (show (initMerge blocks).nrMerged < np from hnp)]
                at hml
              cases hml
            | succ f =>
              rw [mergeLoop_error_step
                (show (initMerge blocks).nrMerged < np from hnp) hrs] at hml
              cases hml
        · have hst2 : st2 = initMerge blocks := by
            cases fuel with
            | zero =>
              rw [mergeLoop, if_neg (show ¬ (initMerge blocks).nrMerged < np
                from by omega)] at hml
              cases hml
              rfl
            | succ f =>
              rw [mergeLoop, if_neg (show ¬ (initMerge blocks).nrMerged < np
                from by omega)] at hml
              cases hml
              rfl
          rw [hst2]
          exact initMerge_place blocks hsorted
      by_cases hinv : st2.inv = []
      · rw [if_pos hinv] at h
        cases h
        intro t hm
        rcases hplace.placed t hm with ⟨hbc, hi, hfin⟩ | ⟨hbc, hi, hfin⟩
        · rw [hinv] at hi
          simp at hi
        · exact hbc
      · rw [if_neg hinv] at h
        cases h
        intro t hm
        show blocksContaining (st2.finals ++ [dumpIndex st2.inv]) t 1 =
          [masterBlk st2.master t]
        rcases hplace.placed t hm with ⟨hbc, hi, hfin⟩ | ⟨hbc, hi, hfin⟩
        · rw [blocksContaining_append,
            if_pos ((dumpIndex_mem st2.inv t).mpr hi), hbc, List.nil_append]
          have hfl := hplace.finLen
          have harr : 1 + st2.finals.length = masterBlk st2.master t := by
            omega
          rw [harr]
        · rw [blocksContaining_append,
            if_neg (fun hh => hi ((dumpIndex_mem st2.inv t).mp hh)), hbc,
            List.append_nil]

/-- C5: whenever an indexing run completes, every term of the merged
vocabulary (the terms of the persisted master index) is written to exactly
one final `PostingIndexBlock` file, and the final block number the master
index records for the term is precisely the number of the block whose rows
physically contain it: the list of final blocks containing the term is the
one-element list of its recorded block number. -/
theorem C5_term_in_unique_final_block (mode : Mode) (maxPost : Int)
    (corpus : List Doc) (fuel : Nat) (result : RunResult)
    (hok : indexDataSource mode maxPost corpus fuel = .ok result)
    (htok : TokensOk corpus) :
    ∀ t ∈ result.masterFile.map Prod.fst,
      blocksContaining result.finals t 1 =
        [masterBlk result.masterFile t] := by
  rcases buildRun_effects mode maxPost corpus htok with
    ⟨_, hsort, _, _, _, _⟩
  have hok2 : Except.bind (mergeIndexBlocks mode maxPost
      (buildRun mode maxPost corpus).nrPostings
      (buildRun mode maxPost corpus).blocks fuel)
      (fun m => (.ok { finals := m.finals
                       masterFile := sortMaster m.master
                       nrIndexedDocs := (buildRun mode maxPost corpus).docId
                       nrPostingsStat :=
                         (buildRun mode maxPost corpus).nrPostings
                       vocabularySize := (buildRun mode maxPost corpus).docId
                       nrTempSegments :=
                         ((buildRun mode maxPost corpus).blocks).length } :
        Except RunError RunResult)) = .ok result := hok
  rcases exceptBind_ok_inv _ _ _ hok2 with ⟨m, hm, hres⟩
  have hres2 : ({ finals := m.finals
                  masterFile := sortMaster m.master
                  nrIndexedDocs := (buildRun mode maxPost corpus).docId
                  nrPostingsStat := (buildRun mode maxPost corpus).nrPostings
                  vocabularySize := (buildRun mode maxPost corpus).docId
                  nrTempSegments :=
                    ((buildRun mode maxPost corpus).blocks).length } :
      RunResult) = result := by
    have := hres
    injection this
  rw [← hres2]
  intro t ht
  have ht2 : t ∈ m.master.map Prod.fst := (sortMaster_keys m.master t).mp ht
  show blocksContaining m.finals t 1 = [masterBlk (sortMaster m.master) t]
  rw [masterBlk_sortMaster]
  exact mergeIndexBlocks_place hm hsort t ht2

/-- C5 witness: the completed `corpusAB` run at threshold 100 — every master
term sits in exactly the recorded final block (here block 1 holds the whole
vocabulary). -/
theorem C5_term_in_unique_final_block_witness :
    indexDataSource .nonPositional 100 corpusAB 5 =
      .ok { finals := [[⟨"a", [(1, [])]⟩, ⟨"b", [(1, [])]⟩, ⟨"c", [(1, [])]⟩,
                        ⟨"d", [(1, [])]⟩, ⟨"z", [(2, [])]⟩]]
            masterFile := [("a", 1, 1), ("b", 1, 1), ("c", 1, 1),
                           ("d", 1, 1), ("z", 1, 1)]
            nrIndexedDocs := 2
            nrPostingsStat := 5
            vocabularySize := 2
            nrTempSegments := 1 } ∧
    TokensOk corpusAB ∧
    (∀ t ∈ ([("a", 1, 1), ("b", 1, 1), ("c", 1, 1), ("d", 1, 1),
        ("z", 1, 1)] : List (String × Nat × Nat)).map Prod.fst,
      blocksContaining [[⟨"a", [(1, [])]⟩, ⟨"b", [(1, [])]⟩,
        ⟨"c", [(1, [])]⟩, ⟨"d", [(1, [])]⟩, ⟨"z", [(2, [])]⟩]] t 1 =
        [masterBlk [("a", 1, 1), ("b", 1, 1), ("c", 1, 1), ("d", 1, 1),
          ("z", 1, 1)] t]) := by
  have hok : indexDataSource .nonPositional 100 corpusAB 5 =
      .ok { finals := [[⟨"a", [(1, [])]⟩, ⟨"b", [(1, [])]⟩, ⟨"c", [(1, [])]⟩,
                        ⟨"d", [(1, [])]⟩, ⟨"z", [(2, [])]⟩]]
            masterFile := [("a", 1, 1), ("b", 1, 1), ("c", 1, 1),
                           ("d", 1, 1), ("z", 1, 1)]
            nrIndexedDocs := 2
            nrPostingsStat := 5
            vocabularySize := 2
            nrTempSegments := 1 } := by decide
  exact ⟨hok, by show ∀ d ∈ corpusAB, (d.map Prod.fst).Nodup; decide,
    C5_term_in_unique_final_block .nonPositional 100 corpusAB 5 _ hok
      (by show ∀ d ∈ corpusAB, (d.map Prod.fst).Nodup; decide)⟩
